import Mathlib

/-!
Verification development for the cell-extrusion core of the unstructured-grids
repository (`ug_op_extrude.py`).

The embedding models the extrusion data the code manipulates:

* mesh faces (`BFace`) as ordered vertex-index lists with a selection flag,
  the form the editable-mesh layer exposes to the extrusion code;
* grid faces (`UGFace`) with owner/neighbour cell references, deleted flag and
  the mesh face index `bi`, as created by `ug.UGFace` and mutated here;
* cells as lists of grid-face indices (`ug.UGCell` face registration);
* vertex coordinates and face normals over `ℚ` (the host computes over floats;
  every property proved here is a sign/structure property that does not depend
  on rounding).

Functions named like the source (`create_faces`, `cast_vertices`,
`point_neighbour_cell_to_internal_face`, `calculate_extrusion_dir_and_coeffs`)
are translated from `ug_op_extrude.py`.  Helpers of the external `ug` module
that the source calls but whose code is not part of the sources
(`ug.UGCell.add_face_info`, `ug.get_ugface_from_face_index`) are modelled from
the specification and carry a doc comment saying so.

Python exceptions are modelled with `Except`/dedicated result constructors:
an `Except.error`/`CF.exn` value stands for an exception propagating out of
the function, and `CF.noneNone` stands for `create_faces` returning the pair
`(None, None)`.
-/

namespace UGX

/-- 3D vector over `ℚ`, standing for a `mathutils.Vector`. -/
structure Vec3 where
  x : ℚ
  y : ℚ
  z : ℚ
deriving DecidableEq, Repr

def Vec3.zero : Vec3 := ⟨0, 0, 0⟩

def Vec3.add (a b : Vec3) : Vec3 := ⟨a.x + b.x, a.y + b.y, a.z + b.z⟩

def Vec3.sub (a b : Vec3) : Vec3 := ⟨a.x - b.x, a.y - b.y, a.z - b.z⟩

def Vec3.smul (q : ℚ) (a : Vec3) : Vec3 := ⟨q * a.x, q * a.y, q * a.z⟩

def Vec3.dot (a b : Vec3) : ℚ := a.x * b.x + a.y * b.y + a.z * b.z

/-- Squared euclidean length of a vector. -/
def Vec3.normSq (a : Vec3) : ℚ := a.x * a.x + a.y * a.y + a.z * a.z

/-- A mesh (bmesh) face: ordered vertex indices and the selection flag. -/
structure BFace where
  verts : List Nat
  select : Bool
deriving DecidableEq, Repr

/-- A grid face (`ug.UGFace`): ordered vertex indices, owner cell index,
optional neighbour cell index, deleted flag and the mesh face index `bi`. -/
structure UGFace where
  verts : List Nat
  owner : Option Nat
  neighbour : Option Nat
  deleted : Bool
  bi : Nat
deriving DecidableEq, Repr

/-- One face of the extrusion front, as `create_faces` reads it from the mesh:
its mesh face index `fi` (`f.index`), its vertex loop (`f.verts`) and its edge
list (`f.edges`, each edge as the pair `(e.verts[0].index, e.verts[1].index)`).
bmesh keeps a single edge object per vertex pair, so an edge shared by two
front faces appears as the same pair in both edge lists. -/
structure FrontFace where
  fi : Nat
  verts : List Nat
  edges : List (Nat × Nat)
deriving DecidableEq, Repr

/-- Topology state mutated by one layer of `create_faces`: the mesh face list,
the grid face list (`ug.ugfaces`), the cell face-sets (`ug.ugcells`), the
`processed_edges` list and the list of new grid-face indices (`newfaces`). -/
structure LayerState where
  bm : List BFace
  ugfaces : List UGFace
  ugcells : List (List Nat)
  processed : List (Nat × Nat)
  newfaces : List Nat
deriving DecidableEq, Repr

/-- External geometry/topology access used by `create_faces`: vertex
coordinates `co`, the old-to-new vertex mapping `vert_map` built by
`cast_vertices`, and the mesh kernel's face-normal computation `nrm`
(`f2.normal` after `f2.normal_update()`, a function of the vertex loop). -/
structure Ctx where
  co : Nat → Vec3
  vm : Nat → Nat
  nrm : List Nat → Vec3

def dummyBFace : BFace := { verts := [], select := false }

def dummyUGFace : UGFace :=
  { verts := [], owner := none, neighbour := none, deleted := false, bi := 0 }

def dFront : FrontFace := { fi := 0, verts := [], edges := [] }

def dEdge : Nat × Nat := (0, 0)

/-- Mesh-face vertex loop at index `i`. -/
def bmV (st : LayerState) (i : Nat) : List Nat := (st.bm.getD i dummyBFace).verts

/-- Grid face at index `u`. -/
def ugAt (st : LayerState) (u : Nat) : UGFace := st.ugfaces.getD u dummyUGFace

/-- Face set of cell `j`. -/
def cellAt (st : LayerState) (j : Nat) : List Nat := st.ugcells.getD j []

/-- `True` on `Bool` test: all of `vs` occur in `ws` (the membership test the
face scan of `point_neighbour_cell_to_internal_face` performs). -/
def subList (vs ws : List Nat) : Bool := vs.all (fun v => ws.elem v)

/-- Scan helper: first position (counting from `i`) whose face satisfies `p`. -/
def scanAux (p : BFace → Bool) : List BFace → Nat → Option Nat
  | [], _ => none
  | bf :: rest, i => if p bf then some i else scanAux p rest (i + 1)

/-- The face search of `point_neighbour_cell_to_internal_face`: scan the mesh
faces from index `nf0` on for the first face containing all of `vs`. -/
def scanFrom (bm : List BFace) (nf0 : Nat) (vs : List Nat) : Option Nat :=
  scanAux (fun bf => subList vs bf.verts) (bm.drop nf0) nf0

/-- Search helper for the grid-face lookup by mesh face index. -/
def findUgAux (fi : Nat) : List UGFace → Nat → Option Nat
  | [], _ => none
  | u :: rest, i => if u.bi = fi then some i else findUgAux fi rest (i + 1)

/-- Modelled from the spec: `ug.get_ugface_from_face_index` is not part of the
sources; per the spec a grid face stores the mesh face index (`bi`) and is
looked up by it, so the model returns the index of the first grid face whose
`bi` equals the argument mesh face index (`none` models a failed lookup, which
Python would surface as an `AttributeError` on the returned `None`). -/
def get_ugface_from_face_index (ugfaces : List UGFace) (fi : Nat) : Option Nat :=
  findUgAux fi ugfaces 0

/-- Modelled from the spec: `ug.UGCell.add_face_info` is not part of the
sources; per the spec §4.1 a cell keeps a face set with idempotent-safe
insertion ("each added exactly once, no duplicates — tracked by face-set
semantics"), so the model appends the face index to cell `nc` unless already
present.  (The source also registers the face's vertices with the cell;
cell-vertex sets play no role in any claim and are not modelled.) -/
def add_face_info (cells : List (List Nat)) (nc : Nat) (ufi : Nat) : List (List Nat) :=
  let cur := cells.getD nc []
  if ufi ∈ cur then cells else cells.set nc (cur ++ [ufi])

/-- The quad vertex list `[e0, vert_map[e0], vert_map[e1], e1]` that the side
face extruded from edge `e` is built from. -/
def quadList (vm : Nat → Nat) (e : Nat × Nat) : List Nat :=
  [e.1, vm e.1, vm e.2, e.2]

/-- `f.calc_center_median()`: the average of the face's vertex coordinates. -/
def centerMedian (co : Nat → Vec3) (vs : List Nat) : Vec3 :=
  Vec3.smul (1 / (vs.length : ℚ)) (vs.foldl (fun a v => Vec3.add a (co v)) Vec3.zero)

/-- The orientation decision of `create_faces` for the new side face of edge
`e` of base face `f`: flip when `cos_epsilon = f2.normal @ refvec > 0`, with
`refvec = f.calc_center_median() - 0.5*(e0.co+e1.co)`.  The source normalizes
`refvec` before taking the dot product; normalization multiplies the dot
product by the nonnegative scalar `1/|refvec|` and cannot change the outcome
of the strict comparison with zero, so the model compares the unnormalized
dot product. -/
def flip_decision (c : Ctx) (f : FrontFace) (e : Nat × Nat) : Bool :=
  let edgevec := Vec3.smul (1 / 2) (Vec3.add (c.co e.1) (c.co e.2))
  let refvec := Vec3.sub (centerMedian c.co f.verts) edgevec
  decide (0 < Vec3.dot (c.nrm (quadList c.vm e)) refvec)

/-- Result of `point_neighbour_cell_to_internal_face`: success returning the
updated state, `notFound` for the `return False` of the sanity check, `exn`
for a propagating Python exception (failed grid-face lookup). -/
inductive PN where
  | ok (st : LayerState)
  | notFound
  | exn
deriving DecidableEq, Repr

/-- `point_neighbour_cell_to_internal_face(e, nc, nf0, bm, vert_map)`: find
the already-extruded side face of edge `e` among the mesh faces created since
index `nf0`, set its grid face's neighbour to cell `nc` and register the face
with cell `nc`.  Scanning failure logs "Sanity violation" and returns `False`
(`PN.notFound`). -/
def point_neighbour_cell_to_internal_face (c : Ctx) (e : Nat × Nat) (nc nf0 : Nat)
    (st : LayerState) : PN :=
  let verts := quadList c.vm e
  match scanFrom st.bm nf0 verts with
  | none => PN.notFound
  | some fi =>
    match get_ugface_from_face_index st.ugfaces fi with
    | none => PN.exn
    | some oi =>
      let old_face := st.ugfaces.getD oi dummyUGFace
      PN.ok { st with
        ugfaces := st.ugfaces.set oi { old_face with neighbour := some nc },
        ugcells := add_face_info st.ugcells nc oi }

/-- Result of the `create_faces` loop: success, the `(None, None)` early
return after a failed sanity check, or a propagating Python exception. -/
inductive CF where
  | ok (st : LayerState)
  | noneNone
  | exn
deriving DecidableEq, Repr

/-- One iteration of the edge loop of `create_faces` (step 1): for an
already-processed edge delegate to `point_neighbour_cell_to_internal_face`
(and turn its `False` into the `(None, None)` return); for a fresh edge,
record it, create the quad mesh face (flipping its winding per
`flip_decision`; `normal_flip` reverses the vertex loop), create its grid face
with `bi = len(bm.faces) - 1` and owner cell `nc`, and register it with cell
`nc`. -/
def processEdge (c : Ctx) (f : FrontFace) (nc nf0 : Nat) (st : LayerState)
    (e : Nat × Nat) : CF :=
  if e ∈ st.processed then
    match point_neighbour_cell_to_internal_face c e nc nf0 st with
    | PN.ok st2 => CF.ok st2
    | PN.notFound => CF.noneNone
    | PN.exn => CF.exn
  else
    let st1 := { st with processed := st.processed ++ [e] }
    let quad := quadList c.vm e
    let fverts := if flip_decision c f e then quad.reverse else quad
    let bm2 := st1.bm ++ [{ verts := fverts, select := false }]
    let ufi := st1.ugfaces.length
    let uf : UGFace :=
      { verts := fverts, owner := some nc, neighbour := none, deleted := false,
        bi := bm2.length - 1 }
    CF.ok { st1 with
      bm := bm2,
      ugfaces := st1.ugfaces ++ [uf],
      newfaces := st1.newfaces ++ [ufi],
      ugcells := add_face_info st1.ugcells nc ufi }

/-- The edge loop of `create_faces` over the base face's edge list. -/
def processEdges (c : Ctx) (f : FrontFace) (nc nf0 : Nat) :
    List (Nat × Nat) → LayerState → CF
  | [], st => CF.ok st
  | e :: rest, st =>
    match processEdge c f nc nf0 st e with
    | CF.ok st2 => processEdges c f nc nf0 rest st2
    | CF.noneNone => CF.noneNone
    | CF.exn => CF.exn

/-- Set the selection flag of mesh face `i` (`select_set`). -/
def setSelect (bm : List BFace) (i : Nat) (b : Bool) : List BFace :=
  bm.set i { bm.getD i dummyBFace with select := b }

/-- The body of the per-face loop of `create_faces`: process all edges of base
face `f` (step 1), set the base face's grid face neighbour to cell `nc` and
register it (step 2), create the top cap face from the mapped vertices in the
base face's vertex order with owner `nc` (step 3), then deselect the base face
and select the top face (step 4). -/
def processFace (c : Ctx) (nc nf0 : Nat) (st : LayerState) (f : FrontFace) : CF :=
  match processEdges c f nc nf0 f.edges st with
  | CF.noneNone => CF.noneNone
  | CF.exn => CF.exn
  | CF.ok st1 =>
    match get_ugface_from_face_index st1.ugfaces f.fi with
    | none => CF.exn
    | some oi =>
      let orig_face := st1.ugfaces.getD oi dummyUGFace
      let st2 := { st1 with
        ugfaces := st1.ugfaces.set oi { orig_face with neighbour := some nc },
        ugcells := add_face_info st1.ugcells nc oi }
      let topverts := f.verts.map c.vm
      let bm3 := st2.bm ++ [{ verts := topverts, select := false }]
      let tfi := st2.ugfaces.length
      let uftop : UGFace :=
        { verts := topverts, owner := some nc, neighbour := none,
          deleted := false, bi := bm3.length - 1 }
      let st3 := { st2 with
        bm := bm3,
        ugfaces := st2.ugfaces ++ [uftop],
        newfaces := st2.newfaces ++ [tfi],
        ugcells := add_face_info st2.ugcells nc tfi }
      let bm4 := setSelect (setSelect st3.bm f.fi false) (st3.bm.length - 1) true
      CF.ok { st3 with bm := bm4 }

/-- The per-face loop of `create_faces`, advancing the cell counter `nc`. -/
def cfLoop (c : Ctx) (nf0 : Nat) : List FrontFace → Nat → LayerState → CF
  | [], _, st => CF.ok st
  | f :: rest, nc, st =>
    match processFace c nc nf0 st f with
    | CF.ok st2 => cfLoop c nf0 rest (nc + 1) st2
    | CF.noneNone => CF.noneNone
    | CF.exn => CF.exn

/-- `create_faces(bm, faces, vert_map)`: record the starting cell index
`nc = len(ug.ugcells)` and mesh-face count `nf0 = len(bm.faces)`, create one
empty cell per front face, then run the per-face loop.  `processed_edges` and
`newfaces` start as fresh empty lists. -/
def create_faces (c : Ctx) (faces : List FrontFace) (st0 : LayerState) : CF :=
  let nc := st0.ugcells.length
  let nf0 := st0.bm.length
  let st1 := { st0 with
    ugcells := st0.ugcells ++ List.replicate faces.length [],
    processed := [], newfaces := [] }
  cfLoop c nf0 faces nc st1

/-- Python exceptions that the extrusion code can raise (modelled). -/
inductive PyErr where
  | zeroDivision
  | attributeError
  | keyError
  | indexError
  | propagated
deriving DecidableEq, Repr

/-- After `create_faces` returns, `extrude_cells` runs
`bm.faces.ensure_lookup_table()` on the returned `bm` unconditionally.  When
`create_faces` returned `(None, None)` this evaluates `None.faces`, raising an
uncaught `AttributeError`; a deeper exception (`CF.exn`) propagates as-is.  On
success the layer returns `len(faces)` new cells. -/
def extrude_cells_finish (faces : List FrontFace) (r : CF) :
    Except PyErr (Nat × LayerState) :=
  match r with
  | CF.ok st => Except.ok (faces.length, st)
  | CF.noneNone => Except.error PyErr.attributeError
  | CF.exn => Except.error PyErr.propagated

/-- A mesh face incident to a vertex, as `calculate_extrusion_dir_and_coeffs`
reads it from `v.link_faces`: mesh face index, normal and selection flag. -/
structure LinkFace where
  index : Nat
  normal : Vec3
  select : Bool
deriving DecidableEq, Repr

/-- One filtering/accumulation step of the normal-averaging loop of
`calculate_extrusion_dir_and_coeffs`: skip deleted grid faces, faces that
already have a neighbour cell and (under the ignore-unselected policy)
unselected faces; otherwise add the face normal and count it.  A failed
grid-face lookup models the `AttributeError` Python would raise on
`None.deleted`. -/
def accumStep (ugfaces : List UGFace) (ignore : Bool)
    (acc : Except PyErr (Nat × Vec3)) (f : LinkFace) : Except PyErr (Nat × Vec3) :=
  match acc with
  | Except.error e => Except.error e
  | Except.ok (n, vec) =>
    match get_ugface_from_face_index ugfaces f.index with
    | none => Except.error PyErr.attributeError
    | some ui =>
      let uf := ugfaces.getD ui dummyUGFace
      if uf.deleted then Except.ok (n, vec)
      else if uf.neighbour.isSome then Except.ok (n, vec)
      else if ignore && !f.select then Except.ok (n, vec)
      else Except.ok (n + 1, Vec3.add vec f.normal)

/-- The accumulation loop over `v.link_faces`. -/
def accumNormals (ugfaces : List UGFace) (ignore : Bool) (lfs : List LinkFace) :
    Except PyErr (Nat × Vec3) :=
  lfs.foldl (accumStep ugfaces ignore) (Except.ok (0, Vec3.zero))

/-- The per-vertex loop of `calculate_extrusion_dir_and_coeffs`, with the
direction and coefficient dictionaries built so far as accumulators. -/
def calcAux (ugfaces : List UGFace) (linkFaces : Nat → List LinkFace)
    (ignore : Bool) :
    List Nat → List (Nat × Vec3) → List (Nat × ℚ) →
    Except PyErr (List (Nat × Vec3) × List (Nat × ℚ))
  | [], vd, cf => Except.ok (vd, cf)
  | v :: rest, vd, cf =>
    match accumNormals ugfaces ignore (linkFaces v) with
    | Except.error e => Except.error e
    | Except.ok (n, vec) =>
      if n = 0 then Except.error PyErr.zeroDivision
      else calcAux ugfaces linkFaces ignore rest
        (vd ++ [(v, Vec3.smul (1 / (n : ℚ)) vec)]) (cf ++ [(v, (1 : ℚ))])

/-- `calculate_extrusion_dir_and_coeffs(verts)`: for each vertex accumulate
the qualifying incident face normals, then compute `vdir[v] = vec / float(n)`
— the plain average; the code contains no guard, so `n = 0` raises
`ZeroDivisionError` (modelled as `Except.error PyErr.zeroDivision` at the
division) — and `coeffs[v] = 1.0`.  Returns the direction and coefficient
dictionaries as association lists in vertex order. -/
def calculate_extrusion_dir_and_coeffs (ugfaces : List UGFace)
    (linkFaces : Nat → List LinkFace) (ignore : Bool) (verts : List Nat) :
    Except PyErr (List (Nat × Vec3) × List (Nat × ℚ)) :=
  calcAux ugfaces linkFaces ignore verts [] []

/-- First-match association-list lookup (Python dict read; every dict built
here writes each key at most once). -/
def lookupA {α : Type} (m : List (Nat × α)) (k : Nat) : Option α :=
  (m.find? (fun p => p.1 == k)).map (fun p => p.2)

/-- The order-preserving duplicate-free collection of the front faces'
vertices (`orig_verts` of `cast_vertices`). -/
def collect_orig_verts (faces : List FrontFace) : List Nat :=
  faces.foldl (fun acc f => f.verts.foldl (fun a v => if v ∈ a then a else a ++ [v]) acc) []

/-- Input data of `cast_vertices` other than the front faces and the prior
direction map: current mesh vertex coordinates, the incident-face query, the
two policy flags, the current extrusion thickness, and the outcome of
evaluating the user thickness expression (`float(eval(expr))`), with `none`
modelling any exception raised by the evaluation. -/
structure CastIn where
  verts : List Vec3
  linkFaces : Nat → List LinkFace
  ignoreUnselected : Bool
  fixedInit : Bool
  thickness : ℚ
  exprResult : Option ℚ

/-- Output of `cast_vertices`: updated vertex coordinates, the old-to-new
vertex mapping, the saved direction map for the next layer (keyed by the new
vertex index) and the updated extrusion thickness property. -/
structure CastOut where
  verts : List Vec3
  vert_map : List (Nat × Nat)
  save_vdir : List (Nat × Vec3)
  thickness : ℚ
deriving DecidableEq, Repr

/-- The vertex-casting loop of `cast_vertices` over `orig_verts`: choose the
prior-layer direction when the fixed-initial-directions policy holds and the
prior map has the vertex, else the freshly computed one; create the new vertex
at `v.co + extrude_len * vertdir * coeffs[v.index]`; advance the new-vertex
index `ind`; record the vertex mapping and the saved direction keyed by `ind`.
A missing dictionary key models Python's `KeyError`. -/
def castLoop (fixedInit : Bool) (extrude_len : ℚ)
    (vdir new_vdir : List (Nat × Vec3)) (coeffs : List (Nat × ℚ)) :
    List Nat → List Vec3 → List (Nat × Nat) → List (Nat × Vec3) → Nat →
    Except PyErr (List Vec3 × List (Nat × Nat) × List (Nat × Vec3))
  | [], verts, vmap, sdir, _ => Except.ok (verts, vmap, sdir)
  | v :: rest, verts, vmap, sdir, ind =>
    let dirO := if fixedInit && (lookupA vdir v).isSome then lookupA vdir v
                else lookupA new_vdir v
    match dirO, lookupA coeffs v with
    | some vertdir, some cf =>
      let newco := Vec3.add (verts.getD v Vec3.zero)
        (Vec3.smul cf (Vec3.smul extrude_len vertdir))
      castLoop fixedInit extrude_len vdir new_vdir coeffs rest
        (verts ++ [newco]) (vmap ++ [(v, ind + 1)]) (sdir ++ [(ind + 1, vertdir)]) (ind + 1)
    | _, _ => Except.error PyErr.keyError

/-- `cast_vertices(bm, faces, vdir)`: collect the original vertices, compute
fresh directions and coefficients, cast one new vertex per original vertex,
then update the stored extrusion thickness from the user expression — the
`eval`/`float` call sits in a bare `try`/`except`, so on failure the error is
logged and the thickness is left unchanged.  `ind` starts at
`bm.verts[-1].index`, which on an empty vertex table would raise `IndexError`. -/
def cast_vertices (ci : CastIn) (ugfaces : List UGFace) (faces : List FrontFace)
    (vdir : List (Nat × Vec3)) : Except PyErr CastOut :=
  if ci.verts.length = 0 then Except.error PyErr.indexError
  else
    let ind0 := ci.verts.length - 1
    let orig := collect_orig_verts faces
    match calculate_extrusion_dir_and_coeffs ugfaces ci.linkFaces
        ci.ignoreUnselected orig with
    | Except.error e => Except.error e
    | Except.ok (new_vdir, coeffs) =>
      match castLoop ci.fixedInit ci.thickness vdir new_vdir coeffs orig
          ci.verts [] [] ind0 with
      | Except.error e => Except.error e
      | Except.ok (verts2, vmap, sdir) =>
        let newThickness :=
          match ci.exprResult with
          | some rval => rval
          | none => ci.thickness
        Except.ok { verts := verts2, vert_map := vmap, save_vdir := sdir,
                    thickness := newThickness }

/-- The report a run of the operator's `execute` issues. -/
inductive OpReport where
  | errorInit
  | errorNoObject
  | info (n : Nat)
deriving DecidableEq, Repr

/-- Operator return status. -/
inductive OpStatus where
  | finished
  | cancelled
deriving DecidableEq, Repr

/-- The layer loop of `UG_OT_ExtrudeCells.execute`: accumulate the per-layer
new cell counts into `n` and report the error (returning) as soon as the
accumulated total `n` is zero; after the loop report the total. -/
def layers_loop : List Nat → Nat → OpReport
  | [], n => OpReport.info n
  | c :: rest, n =>
    if n + c = 0 then OpReport.errorNoObject else layers_loop rest (n + c)

/-- `UG_OT_ExtrudeCells.execute`, over the initialization outcome and the
sequence of per-layer new-cell counts returned by `extrude_cells`: on failed
initialization report the error and return `{'FINISHED'}`; otherwise run the
layer loop; every return path returns `{'FINISHED'}`. -/
def operator_execute (initOk : Bool) (counts : List Nat) : OpReport × OpStatus :=
  if initOk then (layers_loop counts 0, OpStatus.finished)
  else (OpReport.errorInit, OpStatus.finished)

end UGX

namespace UGX

/-! ## Easy-claim theorems -/

/-- The layer loop never reports the zero-cells error once the accumulated
total is positive: counts are non-negative, so the total can never return to
zero. -/
theorem layers_loop_pos (rest : List Nat) (n : Nat) (hn : n ≠ 0) :
    layers_loop rest n ≠ OpReport.errorNoObject := by
  induction rest generalizing n with
  | nil => simp [layers_loop]
  | cons c r ih =>
    have h2 : n + c ≠ 0 := by omega
    simp [layers_loop, h2]
    exact ih (n + c) h2

/-- C2 counterexample: in a two-layer run whose per-layer new-cell counts are
1 and 0, the second layer produces zero new cells, yet the operator reports
success ("Extruded 1 new cells") and finishes: a zero-cell layer after a
productive layer does not terminate the run with a failure report, because
`execute` tests the accumulated total `n`, not the per-layer count `nf`. -/
theorem claim_C2_counterexample :
    [1, 0].getD 1 1 = 0 ∧
    operator_execute true [1, 0] = (OpReport.info 1, OpStatus.finished) := by
  constructor <;> rfl

/-- C2 (amended): the multi-layer run is reported as failed exactly when the
accumulated new-cell total is zero after some layer; since per-layer counts
are non-negative, this happens exactly when the first layer produces zero new
cells — a zero-cell later layer after productive layers does not terminate
the run. -/
theorem claim_C2 (c : Nat) (rest : List Nat) :
    (operator_execute true (c :: rest)).1 = OpReport.errorNoObject ↔ c = 0 := by
  constructor
  · intro h
    by_contra hc
    have h0 : (0 : Nat) + c ≠ 0 := by omega
    simp only [operator_execute, if_pos rfl, layers_loop, h0, if_false] at h
    exact layers_loop_pos rest (0 + c) h0 h
  · intro h
    subst h
    rfl

/-- C10: every return path of the operator's `execute` returns the status
`{'FINISHED'}` — on initialization failure, on the zero-cell error path and on
success alike — failures being surfaced only through report messages; no
return path yields a `CANCELLED` status. -/
theorem claim_C10 (initOk : Bool) (counts : List Nat) :
    (operator_execute initOk counts).2 = OpStatus.finished ∧
    (operator_execute initOk counts).2 ≠ OpStatus.cancelled := by
  cases initOk <;> simp [operator_execute]

/-- A grid-face list for the C3 failing input: the vertex's only incident
face already has a neighbour cell. -/
def ugfC3 : List UGFace :=
  [{ verts := [0, 1, 2, 3], owner := some 0, neighbour := some 1,
     deleted := false, bi := 0 }]

/-- Incident-face query for the C3 failing input. -/
def lfC3 : Nat → List LinkFace :=
  fun _ => [{ index := 0, normal := ⟨0, 0, 1⟩, select := true }]

/-- Cast input for the C3 failing input. -/
def ciC3 : CastIn :=
  { verts := [Vec3.zero], linkFaces := lfC3, ignoreUnselected := false,
    fixedInit := false, thickness := 1, exprResult := some 1 }

/-- Front face for the C3 failing input (a degenerate one-vertex front is
enough to reach the division). -/
def frontC3 : FrontFace := { fi := 0, verts := [0], edges := [] }

/-- C3: the direction computation is NOT guarded against division by zero.
For a front vertex all of whose incident faces are filtered out (here: the
only incident face already has a neighbour cell), the accumulated face count
is zero and `vec / float(n)` raises `ZeroDivisionError`; the exception
propagates uncaught through `cast_vertices` (there is no try/except around
the call), so the condition is not reported as a failure. -/
theorem claim_C3 :
    calculate_extrusion_dir_and_coeffs ugfC3 lfC3 false [0] =
      Except.error PyErr.zeroDivision ∧
    cast_vertices ciC3 ugfC3 [frontC3] [] = Except.error PyErr.zeroDivision := by
  constructor <;> rfl

/-- Grid faces for the C4 failing input: two free boundary faces. -/
def ugfC4 : List UGFace :=
  [{ verts := [0, 1, 2, 3], owner := none, neighbour := none,
     deleted := false, bi := 0 },
   { verts := [0, 1, 4, 5], owner := none, neighbour := none,
     deleted := false, bi := 1 }]

/-- Incident-face query for the C4 failing input: two qualifying faces with
orthogonal unit normals. -/
def lfC4 : Nat → List LinkFace :=
  fun _ => [{ index := 0, normal := ⟨1, 0, 0⟩, select := true },
            { index := 1, normal := ⟨0, 1, 0⟩, select := true }]

/-- C4: the direction returned for a vertex with two qualifying incident
faces of unit normals `(1,0,0)` and `(0,1,0)` is their plain average
`(1/2, 1/2, 0)`, whose squared length is `1/2`, not `1`: the code never
normalizes the averaged vector, contradicting its own docstring ("Calculate
normalized extrusion direction vector"). -/
theorem claim_C4 :
    calculate_extrusion_dir_and_coeffs ugfC4 lfC4 false [7] =
      Except.ok ([(7, ⟨1/2, 1/2, 0⟩)], [(7, 1)]) ∧
    Vec3.normSq ⟨1, 0, 0⟩ = 1 ∧ Vec3.normSq ⟨0, 1, 0⟩ = 1 ∧
    Vec3.normSq ⟨1/2, 1/2, 0⟩ ≠ 1 := by
  refine ⟨?_, by norm_num [Vec3.normSq], by norm_num [Vec3.normSq],
    by norm_num [Vec3.normSq]⟩
  norm_num [calculate_extrusion_dir_and_coeffs, calcAux, accumNormals,
    accumStep, get_ugface_from_face_index, findUgAux, ugfC4, lfC4,
    dummyUGFace, List.getD, Vec3.smul, Vec3.add, Vec3.zero]

/-- C6: expression-evaluation outcomes only affect the stored thickness.
Casting with any evaluation outcome equals casting with a failed evaluation
except that a successful evaluation stores the expression's value as the new
thickness while a failure leaves the previous thickness in place; in
particular both runs succeed or fail identically, so no evaluation failure
ever aborts the extrusion. -/
theorem claim_C6 (ci : CastIn) (ugfaces : List UGFace) (faces : List FrontFace)
    (vdir : List (Nat × Vec3)) :
    cast_vertices ci ugfaces faces vdir =
      (cast_vertices { ci with exprResult := none } ugfaces faces vdir).map
        (fun o => { o with thickness :=
          match ci.exprResult with
          | some rval => rval
          | none => ci.thickness }) := by
  unfold cast_vertices
  by_cases h : ci.verts.length = 0
  · simp [h, Except.map]
  · simp only [h, if_false]
    cases hc : calculate_extrusion_dir_and_coeffs ugfaces ci.linkFaces
        ci.ignoreUnselected (collect_orig_verts faces) with
    | error e => simp [Except.map]
    | ok pr =>
      obtain ⟨nv, cf⟩ := pr
      dsimp only
      cases hl : castLoop ci.fixedInit ci.thickness vdir nv cf
          (collect_orig_verts faces) ci.verts [] [] (ci.verts.length - 1) with
      | error e => simp [Except.map]
      | ok out =>
        obtain ⟨v2, vm2, sd2⟩ := out
        cases hr : ci.exprResult <;> simp [Except.map]

/-- Context for the C5 failing input. -/
def cC5 : Ctx :=
  { co := fun _ => Vec3.zero, vm := fun v => v + 10, nrm := fun _ => ⟨0, 0, 1⟩ }

/-- Layer state for the C5 failing input: edge `(0,1)` is recorded as
processed, but no mesh face created since the layer began contains its quad
vertices, so the face scan cannot locate the expected side face. -/
def stC5 : LayerState :=
  { bm := [], ugfaces := [], ugcells := [[], []], processed := [(0, 1)],
    newfaces := [] }

/-- Front face for the C5 failing input. -/
def frontC5 : FrontFace := { fi := 0, verts := [0, 1], edges := [(0, 1)] }

/-- C5: when the expected previously created side face cannot be located, the
helper returns `False` ("Sanity violation" is only logged, not reported via
the operator), `create_faces` turns that into the `(None, None)` early return
— so no further side, base or cap processing happens — and `extrude_cells`
then unconditionally evaluates `bm.faces.ensure_lookup_table()` on the
returned `None`, raising an uncaught `AttributeError`: the layer ends in an
uncontrolled crash, not a reported failure. -/
theorem claim_C5 :
    point_neighbour_cell_to_internal_face cC5 (0, 1) 0 0 stC5 = PN.notFound ∧
    processEdge cC5 frontC5 0 0 stC5 (0, 1) = CF.noneNone ∧
    extrude_cells_finish [frontC5] CF.noneNone =
      Except.error PyErr.attributeError := by
  refine ⟨rfl, by decide, rfl⟩

end UGX

namespace UGX

/-! ## Vertex-casting characterization (C9) -/

/-- `(l ++ l2).getD` below `l.length` reads `l`. -/
theorem getD_append_lt {α : Type} (l l2 : List α) (n : Nat) (d : α)
    (h : n < l.length) : (l ++ l2).getD n d = l.getD n d := by
  induction l generalizing n with
  | nil => simp at h
  | cons a t ih =>
    cases n with
    | zero => rfl
    | succ m => simpa using ih m (by simpa using h)

/-- `(l ++ l2).getD` at or above `l.length` reads `l2`. -/
theorem getD_append_ge {α : Type} (l l2 : List α) (n : Nat) (d : α)
    (h : l.length ≤ n) : (l ++ l2).getD n d = l2.getD (n - l.length) d := by
  induction l generalizing n with
  | nil => simp
  | cons a t ih =>
    cases n with
    | zero => simp at h
    | succ m => simpa using ih m (by simpa using h)

/-- `getD` through `map` for an in-range index. -/
theorem getD_map_lt {α β : Type} (f : α → β) (l : List α) (k : Nat)
    (da : α) (db : β) (h : k < l.length) :
    (l.map f).getD k db = f (l.getD k da) := by
  induction l generalizing k with
  | nil => simp at h
  | cons a t ih =>
    cases k with
    | zero => rfl
    | succ m => simpa using ih m (by simpa using h)

/-- The direction `cast_vertices` uses for vertex `v`: the prior-layer stored
direction when the fixed-initial-directions policy is enabled and the prior
map `vdir` has an entry for `v`, and the freshly computed direction from
`new_vdir` otherwise. -/
def dirOf (fixedInit : Bool) (vdir nv : List (Nat × Vec3)) (v : Nat) : Vec3 :=
  if fixedInit && (lookupA vdir v).isSome then (lookupA vdir v).getD Vec3.zero
  else (lookupA nv v).getD Vec3.zero

/-- The new coordinate `cast_vertices` computes for vertex `v`:
`v.co + extrude_len * vertdir * coeffs[v.index]`. -/
def newcoOf (fixedInit : Bool) (t : ℚ) (vdir nv : List (Nat × Vec3))
    (cf : List (Nat × ℚ)) (verts : List Vec3) (v : Nat) : Vec3 :=
  Vec3.add (verts.getD v Vec3.zero)
    (Vec3.smul ((lookupA cf v).getD 1) (Vec3.smul t (dirOf fixedInit vdir nv v)))

/-- The vertex-map entries the casting loop appends, given the running new
vertex index starts after `b`. -/
def castMapSpec (b : Nat) : List Nat → List (Nat × Nat)
  | [] => []
  | v :: rest => (v, b + 1) :: castMapSpec (b + 1) rest

/-- The saved-direction entries the casting loop appends (keyed by the new
vertex index). -/
def castSdirSpec (fixedInit : Bool) (vdir nv : List (Nat × Vec3)) (b : Nat) :
    List Nat → List (Nat × Vec3)
  | [] => []
  | v :: rest =>
    (b + 1, dirOf fixedInit vdir nv v) :: castSdirSpec fixedInit vdir nv (b + 1) rest

theorem castMapSpec_getD (vs : List Nat) (b k : Nat) (d : Nat × Nat)
    (h : k < vs.length) :
    (castMapSpec b vs).getD k d = (vs.getD k 0, b + 1 + k) := by
  induction vs generalizing b k with
  | nil => simp at h
  | cons v rest ih =>
    cases k with
    | zero => rfl
    | succ m =>
      have := ih (b + 1) m (by simpa using h)
      simpa [castMapSpec, Nat.add_assoc, Nat.add_comm, Nat.add_left_comm] using this

theorem castSdirSpec_getD (fixedInit : Bool) (vdir nv : List (Nat × Vec3))
    (vs : List Nat) (b k : Nat) (d : Nat × Vec3) (h : k < vs.length) :
    (castSdirSpec fixedInit vdir nv b vs).getD k d =
      (b + 1 + k, dirOf fixedInit vdir nv (vs.getD k 0)) := by
  induction vs generalizing b k with
  | nil => simp at h
  | cons v rest ih =>
    cases k with
    | zero => rfl
    | succ m =>
      have := ih (b + 1) m (by simpa using h)
      simpa [castSdirSpec, Nat.add_assoc, Nat.add_comm, Nat.add_left_comm] using this

/-- Full characterization of the casting loop on success: the vertex table is
extended by one new coordinate per original vertex, and the vertex map and
saved-direction map are extended by the corresponding entries with
consecutive new indices. -/
theorem castLoop_spec (fixedInit : Bool) (t : ℚ) (vdir nv : List (Nat × Vec3))
    (cf : List (Nat × ℚ)) :
    ∀ (vs : List Nat) (verts : List Vec3) (vmap : List (Nat × Nat))
      (sdir : List (Nat × Vec3)) (v2 : List Vec3) (m2 : List (Nat × Nat))
      (s2 : List (Nat × Vec3)),
      1 ≤ verts.length →
      (∀ v ∈ vs, v < verts.length) →
      castLoop fixedInit t vdir nv cf vs verts vmap sdir (verts.length - 1) =
        Except.ok (v2, m2, s2) →
      v2 = verts ++ vs.map (newcoOf fixedInit t vdir nv cf verts) ∧
      m2 = vmap ++ castMapSpec (verts.length - 1) vs ∧
      s2 = sdir ++ castSdirSpec fixedInit vdir nv (verts.length - 1) vs := by
  intro vs
  induction vs with
  | nil =>
    intro verts vmap sdir v2 m2 s2 h1 hm hc
    simp only [castLoop] at hc
    obtain ⟨h2, h3, h4⟩ : verts = v2 ∧ vmap = m2 ∧ sdir = s2 := by
      refine ⟨?_, ?_, ?_⟩ <;> injection hc with hh <;>
        simp [Prod.ext_iff] at hh <;> tauto
    simp [castMapSpec, castSdirSpec, h2.symm, h3.symm, h4.symm]
  | cons v rest ih =>
    intro verts vmap sdir v2 m2 s2 h1 hm hc
    simp only [castLoop] at hc
    cases hd : (if fixedInit && (lookupA vdir v).isSome then lookupA vdir v
        else lookupA nv v) with
    | none => rw [hd] at hc; cases hc
    | some d =>
      rw [hd] at hc
      cases hcf : lookupA cf v with
      | none => rw [hcf] at hc; cases hc
      | some cfv =>
        rw [hcf] at hc
        simp only at hc
        have hdv : d = dirOf fixedInit vdir nv v := by
          by_cases hb : (fixedInit && (lookupA vdir v).isSome) = true
          · rw [if_pos hb] at hd
            have hb2 : fixedInit = true ∧ (lookupA vdir v).isSome = true := by
              simpa using hb
            simp [dirOf, hb2.1, hd]
          · rw [if_neg hb] at hd
            have hbf : (fixedInit && (lookupA vdir v).isSome) = false := by
              simpa using hb
            simp [dirOf, hbf, hd]
        have hcfv : cfv = (lookupA cf v).getD 1 := by simp [hcf]
        set newco := Vec3.add (verts.getD v Vec3.zero)
          (Vec3.smul cfv (Vec3.smul t d)) with hnewco
        have hlen : verts.length - 1 + 1 = (verts ++ [newco]).length - 1 := by
          simp
          omega
        rw [hlen] at hc
        have hrec := ih (verts ++ [newco]) (vmap ++ [(v, verts.length - 1 + 1)])
          (sdir ++ [(verts.length - 1 + 1, d)]) v2 m2 s2
          (by simp only [List.length_append, List.length_cons, List.length_nil]; omega)
          (fun w hw => lt_of_lt_of_le (hm w (List.mem_cons_of_mem v hw))
            (by simp))
          (by rw [← hlen] at hc ⊢; exact hc)
        obtain ⟨hv2, hm2, hs2⟩ := hrec
        have hmapeq : rest.map (newcoOf fixedInit t vdir nv cf (verts ++ [newco])) =
            rest.map (newcoOf fixedInit t vdir nv cf verts) := by
          refine List.map_congr_left (fun w hw => ?_)
          unfold newcoOf
          rw [getD_append_lt _ _ _ _ (hm w (List.mem_cons_of_mem v hw))]
        have hnewcoOf : newco = newcoOf fixedInit t vdir nv cf verts v := by
          unfold newcoOf
          rw [hnewco, hdv, hcfv]
        have hidx : verts.length - 1 + 1 = verts.length := by omega
        refine ⟨?_, ?_, ?_⟩
        · rw [hv2, hmapeq, hnewcoOf]
          simp [List.append_assoc]
        · rw [hm2, castMapSpec]
          rw [← hlen, hidx]
          simp [List.append_assoc, hidx]
        · rw [hs2, castSdirSpec]
          rw [← hlen, hidx, hdv]
          simp [List.append_assoc, hidx]

/-- On success, every coefficient `calculate_extrusion_dir_and_coeffs` emits
beyond the accumulator is the constant `1.0`. -/
theorem calcAux_coeffs (ugfaces : List UGFace) (linkFaces : Nat → List LinkFace)
    (ignore : Bool) :
    ∀ (vs : List Nat) (vd0 : List (Nat × Vec3)) (cf0 : List (Nat × ℚ))
      (nv : List (Nat × Vec3)) (cf : List (Nat × ℚ)),
      calcAux ugfaces linkFaces ignore vs vd0 cf0 = Except.ok (nv, cf) →
      ∀ p ∈ cf, p ∈ cf0 ∨ p.2 = 1 := by
  intro vs
  induction vs with
  | nil =>
    intro vd0 cf0 nv cf hc p hp
    simp only [calcAux] at hc
    injection hc with hh
    have : cf0 = cf := by simp [Prod.ext_iff] at hh; tauto
    exact Or.inl (this ▸ hp)
  | cons v rest ih =>
    intro vd0 cf0 nv cf hc p hp
    simp only [calcAux] at hc
    cases ha : accumNormals ugfaces ignore (linkFaces v) with
    | error e => rw [ha] at hc; cases hc
    | ok pr =>
      rw [ha] at hc
      obtain ⟨n, vec⟩ := pr
      by_cases hn : n = 0
      · simp only [hn, if_pos rfl] at hc; cases hc
      · simp only [if_neg hn] at hc
        rcases ih _ _ _ _ hc p hp with hin | h1
        · rcases List.mem_append.mp hin with hin2 | hin2
          · exact Or.inl hin2
          · simp at hin2
            right
            rw [hin2]
        · exact Or.inr h1

/-- A lookup in an all-ones coefficient dictionary yields `1`. -/
theorem lookupA_getD_one (cf : List (Nat × ℚ)) (v : Nat)
    (h : ∀ p ∈ cf, p.2 = 1) : (lookupA cf v).getD 1 = 1 := by
  unfold lookupA
  cases hf : cf.find? (fun p => p.1 == v) with
  | none => rfl
  | some p => simpa using h p (List.mem_of_find?_eq_some hf)

theorem Vec3.one_smul (a : Vec3) : Vec3.smul 1 a = a := by
  cases a; simp [Vec3.smul]

/-- C9: for every vertex cast during a layer: the direction used is the
prior-layer stored direction exactly when the fixed-initial-directions policy
is enabled and the prior map has an entry for the vertex, else the freshly
computed direction (`dirOf`); every length coefficient the direction
calculator emits is the constant `1.0`; the new vertex's position is the old
position plus thickness times direction (times the coefficient `1`); and the
emitted saved-direction map is keyed by the new vertex's index
`ci.verts.length + k`. -/
theorem claim_C9 (ci : CastIn) (ugfaces : List UGFace) (faces : List FrontFace)
    (vdir : List (Nat × Vec3)) (out : CastOut) (nv : List (Nat × Vec3))
    (cf : List (Nat × ℚ))
    (hcast : cast_vertices ci ugfaces faces vdir = Except.ok out)
    (hcalc : calculate_extrusion_dir_and_coeffs ugfaces ci.linkFaces
      ci.ignoreUnselected (collect_orig_verts faces) = Except.ok (nv, cf))
    (hmem : ∀ v ∈ collect_orig_verts faces, v < ci.verts.length) :
    (∀ p ∈ cf, p.2 = 1) ∧
    (∀ k, k < (collect_orig_verts faces).length →
      out.vert_map.getD k (0, 0) =
        ((collect_orig_verts faces).getD k 0, ci.verts.length + k) ∧
      out.save_vdir.getD k (0, Vec3.zero) =
        (ci.verts.length + k,
          dirOf ci.fixedInit vdir nv ((collect_orig_verts faces).getD k 0)) ∧
      out.verts.getD (ci.verts.length + k) Vec3.zero =
        Vec3.add (ci.verts.getD ((collect_orig_verts faces).getD k 0) Vec3.zero)
          (Vec3.smul ci.thickness
            (dirOf ci.fixedInit vdir nv ((collect_orig_verts faces).getD k 0)))) := by
  have hones : ∀ p ∈ cf, p.2 = 1 := by
    intro p hp
    rcases calcAux_coeffs ugfaces ci.linkFaces ci.ignoreUnselected
        (collect_orig_verts faces) [] [] nv cf hcalc p hp with hin | h1
    · simp at hin
    · exact h1
  refine ⟨hones, ?_⟩
  unfold cast_vertices at hcast
  by_cases hN : ci.verts.length = 0
  · rw [if_pos hN] at hcast; cases hcast
  · rw [if_neg hN] at hcast
    dsimp only at hcast
    rw [hcalc] at hcast
    simp only at hcast
    cases hl : castLoop ci.fixedInit ci.thickness vdir nv cf
        (collect_orig_verts faces) ci.verts [] [] (ci.verts.length - 1) with
    | error e => rw [hl] at hcast; cases hcast
    | ok tr =>
      rw [hl] at hcast
      obtain ⟨v2, m2, s2⟩ := tr
      simp only at hcast
      injection hcast with hout
      have hspec := castLoop_spec ci.fixedInit ci.thickness vdir nv cf
        (collect_orig_verts faces) ci.verts [] [] v2 m2 s2 (by omega) hmem hl
      obtain ⟨hv2, hm2, hs2⟩ := hspec
      intro k hk
      have hone1 : (ci.verts.length - 1) + 1 + k = ci.verts.length + k := by omega
      refine ⟨?_, ?_, ?_⟩
      · rw [← hout]
        simp only [hm2, List.nil_append]
        rw [castMapSpec_getD _ _ _ _ hk, hone1]
      · rw [← hout]
        simp only [hs2, List.nil_append]
        rw [castSdirSpec_getD _ _ _ _ _ _ _ hk, hone1]
      · rw [← hout]
        simp only [hv2]
        rw [getD_append_ge _ _ _ _ (by omega)]
        have hsub : ci.verts.length + k - ci.verts.length = k := by omega
        rw [hsub, getD_map_lt _ _ _ 0 _ hk]
        unfold newcoOf
        rw [lookupA_getD_one cf _ hones, Vec3.one_smul]

end UGX

namespace UGX

/-- Grid faces for the C9 witness scenario: one free boundary face. -/
def ugfC9 : List UGFace :=
  [{ verts := [0, 1], owner := none, neighbour := none, deleted := false, bi := 0 }]

/-- Incident-face query for the C9 witness scenario. -/
def lfC9 : Nat → List LinkFace :=
  fun _ => [{ index := 0, normal := ⟨0, 0, 1⟩, select := true }]

/-- Front face for the C9 witness scenario. -/
def frontC9 : FrontFace := { fi := 0, verts := [0, 1], edges := [(0, 1)] }

/-- Cast input for the C9 witness scenario. -/
def ciC9 : CastIn :=
  { verts := [⟨0, 0, 0⟩, ⟨1, 0, 0⟩], linkFaces := lfC9, ignoreUnselected := false,
    fixedInit := false, thickness := 1, exprResult := none }

/-- Expected fresh directions for the C9 witness scenario. -/
def nvC9 : List (Nat × Vec3) := [(0, ⟨0, 0, 1⟩), (1, ⟨0, 0, 1⟩)]

/-- Expected coefficients for the C9 witness scenario. -/
def cfC9 : List (Nat × ℚ) := [(0, 1), (1, 1)]

/-- Expected cast output for the C9 witness scenario. -/
def outC9 : CastOut :=
  { verts := [⟨0, 0, 0⟩, ⟨1, 0, 0⟩, ⟨0, 0, 1⟩, ⟨1, 0, 1⟩],
    vert_map := [(0, 2), (1, 3)],
    save_vdir := [(2, ⟨0, 0, 1⟩), (3, ⟨0, 0, 1⟩)],
    thickness := 1 }

/-- C9 witness: the casting theorem instantiated on a concrete two-vertex
front, with its hypotheses discharged by evaluation. -/
theorem claim_C9_witness :
    cast_vertices ciC9 ugfC9 [frontC9] [] = Except.ok outC9 ∧
    calculate_extrusion_dir_and_coeffs ugfC9 ciC9.linkFaces ciC9.ignoreUnselected
      (collect_orig_verts [frontC9]) = Except.ok (nvC9, cfC9) ∧
    (∀ v ∈ collect_orig_verts [frontC9], v < ciC9.verts.length) ∧
    ((∀ p ∈ cfC9, p.2 = 1) ∧
     (∀ k, k < (collect_orig_verts [frontC9]).length →
       outC9.vert_map.getD k (0, 0) =
         ((collect_orig_verts [frontC9]).getD k 0, ciC9.verts.length + k) ∧
       outC9.save_vdir.getD k (0, Vec3.zero) =
         (ciC9.verts.length + k,
           dirOf ciC9.fixedInit [] nvC9 ((collect_orig_verts [frontC9]).getD k 0)) ∧
       outC9.verts.getD (ciC9.verts.length + k) Vec3.zero =
         Vec3.add (ciC9.verts.getD ((collect_orig_verts [frontC9]).getD k 0) Vec3.zero)
           (Vec3.smul ciC9.thickness
             (dirOf ciC9.fixedInit [] nvC9
               ((collect_orig_verts [frontC9]).getD k 0))))) := by
  have h2 : calculate_extrusion_dir_and_coeffs ugfC9 ciC9.linkFaces
      ciC9.ignoreUnselected (collect_orig_verts [frontC9]) =
      Except.ok (nvC9, cfC9) := by
    norm_num [calculate_extrusion_dir_and_coeffs, calcAux, accumNormals,
      accumStep, get_ugface_from_face_index, findUgAux, ugfC9, lfC9, ciC9,
      collect_orig_verts, frontC9, dummyUGFace, List.getD, Vec3.smul,
      Vec3.add, Vec3.zero, nvC9, cfC9]
  have h1 : cast_vertices ciC9 ugfC9 [frontC9] [] = Except.ok outC9 := by
    norm_num [cast_vertices, calculate_extrusion_dir_and_coeffs, calcAux,
      accumNormals, accumStep, get_ugface_from_face_index, findUgAux, ugfC9,
      lfC9, ciC9, collect_orig_verts, frontC9, dummyUGFace, List.getD,
      Vec3.smul, Vec3.add, Vec3.zero, castLoop, lookupA, List.find?, outC9,
      show ((0 : Nat) == 0) = true from rfl, show ((0 : Nat) == 1) = false from rfl,
      show ((1 : Nat) == 0) = false from rfl, show ((1 : Nat) == 1) = true from rfl]
  have h3 : ∀ v ∈ collect_orig_verts [frontC9], v < ciC9.verts.length := by
    decide
  exact ⟨h1, h2, h3, claim_C9 ciC9 ugfC9 [frontC9] [] outC9 nvC9 cfC9 h1 h2 h3⟩

end UGX

namespace UGX

/-! ## Layer-builder invariant: list utilities -/

theorem getD_set_eq {α : Type} (l : List α) (i : Nat) (a d : α)
    (h : i < l.length) : (l.set i a).getD i d = a := by
  induction l generalizing i with
  | nil => simp at h
  | cons b t ih =>
    cases i with
    | zero => rfl
    | succ m => simpa using ih m (by simpa using h)

theorem getD_set_ne {α : Type} (l : List α) (i j : Nat) (a d : α)
    (h : i ≠ j) : (l.set i a).getD j d = l.getD j d := by
  induction l generalizing i j with
  | nil => simp
  | cons b t ih =>
    cases i with
    | zero =>
      cases j with
      | zero => exact absurd rfl h
      | succ m => rfl
    | succ n =>
      cases j with
      | zero => rfl
      | succ m => simpa using ih n m (by omega)

theorem getD_append_self {α : Type} (l : List α) (a d : α) :
    (l ++ [a]).getD l.length d = a := by
  rw [getD_append_ge _ _ _ _ (le_refl _)]
  simp

theorem getD_take_lt {α : Type} (l : List α) (m k : Nat) (d : α) (h : k < m) :
    (l.take m).getD k d = l.getD k d := by
  induction l generalizing m k with
  | nil => simp
  | cons b t ih =>
    cases m with
    | zero => omega
    | succ m2 =>
      cases k with
      | zero => rfl
      | succ k2 => simpa using ih m2 k2 (by omega)

theorem take_succ_getD {α : Type} (l : List α) (m : Nat) (d : α)
    (h : m < l.length) : l.take (m + 1) = l.take m ++ [l.getD m d] := by
  induction l generalizing m with
  | nil => simp at h
  | cons b t ih =>
    cases m with
    | zero => rfl
    | succ m2 =>
      have := ih m2 (by simpa using h)
      simp only [List.take_succ_cons, List.getD_cons_succ, this, List.cons_append]

theorem mem_getD_own {α : Type} (l : List α) (a d : α) (h : a ∈ l) :
    ∃ i, i < l.length ∧ l.getD i d = a := by
  induction l with
  | nil => cases h
  | cons b t ih =>
    rcases List.mem_cons.mp h with rfl | h2
    · exact ⟨0, by simp, rfl⟩
    · obtain ⟨i, hi, he⟩ := ih h2
      exact ⟨i + 1, by simpa using hi, by simpa using he⟩

theorem getD_mem_own {α : Type} (l : List α) (i : Nat) (d : α)
    (h : i < l.length) : l.getD i d ∈ l := by
  induction l generalizing i with
  | nil => simp at h
  | cons b t ih =>
    cases i with
    | zero => exact List.mem_cons_self b t
    | succ m => exact List.mem_cons_of_mem b (ih m (by simpa using h))

theorem nodup_concat_own {α : Type} (l : List α) (a : α) (h : l.Nodup)
    (ha : a ∉ l) : (l ++ [a]).Nodup := by
  induction l with
  | nil => simp
  | cons b t ih =>
    rcases List.nodup_cons.mp h with ⟨hb, ht⟩
    have hab : a ∉ t := fun hx => ha (List.mem_cons_of_mem b hx)
    have hba : b ∉ t ++ [a] := by
      intro hx
      rcases List.mem_append.mp hx with hx | hx
      · exact hb hx
      · simp at hx
        exact ha (by simp [hx])
    simpa using List.nodup_cons.mpr ⟨hba, ih ht hab⟩

theorem nodup_getD_inj {α : Type} (l : List α) (hl : l.Nodup) (d : α) :
    ∀ i j, i < l.length → j < l.length → l.getD i d = l.getD j d → i = j := by
  induction l with
  | nil => intro i j hi; simp at hi
  | cons b t ih =>
    rcases List.nodup_cons.mp hl with ⟨hb, ht⟩
    intro i j hi hj he
    cases i with
    | zero =>
      cases j with
      | zero => rfl
      | succ m =>
        exfalso
        apply hb
        rw [List.getD_cons_zero] at he
        rw [List.getD_cons_succ] at he
        rw [he]
        exact getD_mem_own t m d (by simpa using hj)
    | succ n =>
      cases j with
      | zero =>
        exfalso
        apply hb
        rw [List.getD_cons_zero] at he
        rw [List.getD_cons_succ] at he
        rw [← he]
        exact getD_mem_own t n d (by simpa using hi)
      | succ m =>
        have := ih ht n m (by simpa using hi) (by simpa using hj)
          (by simpa using he)
        omega

theorem nodup_of_getD_inj {α : Type} (l : List α) (d : α)
    (h : ∀ i j, i < l.length → j < l.length → l.getD i d = l.getD j d → i = j) :
    l.Nodup := by
  induction l with
  | nil => simp
  | cons b t ih =>
    refine List.nodup_cons.mpr ⟨?_, ?_⟩
    · intro hb
      obtain ⟨m, hm, he⟩ := mem_getD_own t b d hb
      have := h 0 (m + 1) (by simp) (by simpa using hm) (by simpa using he.symm)
      omega
    · exact ih (fun i j hi hj he => by
        have := h (i + 1) (j + 1) (by simpa using hi) (by simpa using hj)
          (by simpa using he)
        omega)

theorem nodup_getD_not_mem_take {α : Type} (l : List α) (m : Nat) (d : α)
    (hl : l.Nodup) (hm : m < l.length) : l.getD m d ∉ l.take m := by
  intro hx
  obtain ⟨i, hi, he⟩ := mem_getD_own (l.take m) (l.getD m d) d hx
  rw [List.length_take] at hi
  have him : i < m := lt_of_lt_of_le hi (min_le_left _ _)
  rw [getD_take_lt l m i d him] at he
  have := nodup_getD_inj l hl d i m (by omega) hm he
  omega

/-! ## Layer-builder invariant: front-level bookkeeping -/

/-- All vertices of the front faces. -/
def frontVerts (F : List FrontFace) : List Nat :=
  F.foldr (fun f a => f.verts ++ a) []

theorem mem_frontVerts (F : List FrontFace) (f : FrontFace) (v : Nat)
    (hf : f ∈ F) (hv : v ∈ f.verts) : v ∈ frontVerts F := by
  induction F with
  | nil => cases hf
  | cons g rest ih =>
    rcases List.mem_cons.mp hf with rfl | hf2
    · exact List.mem_append.mpr (Or.inl hv)
    · exact List.mem_append.mpr (Or.inr (ih hf2))

/-- `e` is an edge of some front face. -/
def validEdge (F : List FrontFace) (e : Nat × Nat) : Prop :=
  ∃ f, f ∈ F ∧ e ∈ f.edges

/-- Well-formedness of a layer input, reflecting the bmesh invariants the
source relies on: edges join two distinct existing front vertices; the
old-to-new vertex map is injective on the front and its images are fresh (new
vertices); each geometric edge appears with one fixed orientation wherever
shared (bmesh has one edge object per vertex pair); a face's edge list has no
repeats; each front face is an existing mesh face below `nf0` with a grid face
carrying its mesh index; pre-existing grid faces reference pre-existing mesh
faces. -/
structure WF (c : Ctx) (F : List FrontFace) (st0 : LayerState) : Prop where
  ends_ne : ∀ f ∈ F, ∀ e ∈ f.edges, e.1 ≠ e.2
  ends_mem1 : ∀ f ∈ F, ∀ e ∈ f.edges, e.1 ∈ frontVerts F
  ends_mem2 : ∀ f ∈ F, ∀ e ∈ f.edges, e.2 ∈ frontVerts F
  vm_inj : ∀ v ∈ frontVerts F, ∀ w ∈ frontVerts F, c.vm v = c.vm w → v = w
  vm_fresh : ∀ v ∈ frontVerts F, ∀ w ∈ frontVerts F, c.vm v ≠ w
  edges_cons : ∀ f ∈ F, ∀ g ∈ F, ∀ e ∈ f.edges, ∀ e2 ∈ g.edges,
    ¬(e2.1 = e.2 ∧ e2.2 = e.1)
  edges_nodup : ∀ f ∈ F, f.edges.Nodup
  base_lt : ∀ f ∈ F, f.fi < st0.bm.length
  base_found : ∀ f ∈ F, ∃ u, u ∈ st0.ugfaces ∧ u.bi = f.fi
  old_bi_lt : ∀ u ∈ st0.ugfaces, u.bi < st0.bm.length

/-- One step of the `processed_edges` evolution: append unless present. -/
def addEdge (a : List (Nat × Nat)) (e : Nat × Nat) : List (Nat × Nat) :=
  if e ∈ a then a else a ++ [e]

/-- `processed_edges` evolution over an edge list. -/
def addEdges (a : List (Nat × Nat)) : List (Nat × Nat) → List (Nat × Nat)
  | [] => a
  | e :: es => addEdges (addEdge a e) es

def firstOccsAux : List FrontFace → List (Nat × Nat) → List (Nat × Nat)
  | [], a => a
  | f :: rest, a => firstOccsAux rest (addEdges a f.edges)

/-- The `processed_edges` list after processing the faces of `F` in order. -/
def firstOccs (F : List FrontFace) : List (Nat × Nat) := firstOccsAux F []

theorem mem_addEdge (a : List (Nat × Nat)) (e x : Nat × Nat) :
    x ∈ addEdge a e ↔ x ∈ a ∨ x = e := by
  unfold addEdge
  by_cases h : e ∈ a
  · simp only [if_pos h]
    constructor
    · exact Or.inl
    · rintro (hx | rfl)
      · exact hx
      · exact h
  · simp [if_neg h]

theorem mem_addEdges (es : List (Nat × Nat)) :
    ∀ (a : List (Nat × Nat)) (x : Nat × Nat),
      x ∈ addEdges a es ↔ x ∈ a ∨ x ∈ es := by
  induction es with
  | nil => intro a x; simp [addEdges]
  | cons e rest ih =>
    intro a x
    rw [addEdges, ih, mem_addEdge]
    constructor
    · rintro ((hx | hxe) | hx)
      · exact Or.inl hx
      · exact Or.inr (by rw [hxe]; exact List.mem_cons_self e rest)
      · exact Or.inr (List.mem_cons_of_mem e hx)
    · rintro (hx | hx)
      · exact Or.inl (Or.inl hx)
      · rcases List.mem_cons.mp hx with rfl | hx2
        · exact Or.inl (Or.inr rfl)
        · exact Or.inr hx2

theorem nodup_addEdge (a : List (Nat × Nat)) (e : Nat × Nat) (h : a.Nodup) :
    (addEdge a e).Nodup := by
  unfold addEdge
  by_cases he : e ∈ a
  · simpa [if_pos he]
  · rw [if_neg he]
    exact nodup_concat_own a e h he

theorem nodup_addEdges (es : List (Nat × Nat)) :
    ∀ a : List (Nat × Nat), a.Nodup → (addEdges a es).Nodup := by
  induction es with
  | nil => intro a h; simpa [addEdges]
  | cons e rest ih => intro a h; exact ih (addEdge a e) (nodup_addEdge a e h)

theorem mem_firstOccsAux (P : List FrontFace) :
    ∀ (a : List (Nat × Nat)) (x : Nat × Nat),
      x ∈ firstOccsAux P a ↔ x ∈ a ∨ ∃ f, f ∈ P ∧ x ∈ f.edges := by
  induction P with
  | nil => intro a x; simp [firstOccsAux]
  | cons f rest ih =>
    intro a x
    rw [firstOccsAux, ih, mem_addEdges]
    constructor
    · rintro ((hx | hx) | ⟨g, hg, hxg⟩)
      · exact Or.inl hx
      · exact Or.inr ⟨f, List.mem_cons_self f rest, hx⟩
      · exact Or.inr ⟨g, List.mem_cons_of_mem f hg, hxg⟩
    · rintro (hx | ⟨g, hg, hxg⟩)
      · exact Or.inl (Or.inl hx)
      · rcases List.mem_cons.mp hg with rfl | hg2
        · exact Or.inl (Or.inr hxg)
        · exact Or.inr ⟨g, hg2, hxg⟩

theorem mem_firstOccs (F : List FrontFace) (x : Nat × Nat) :
    x ∈ firstOccs F ↔ ∃ f, f ∈ F ∧ x ∈ f.edges := by
  rw [firstOccs, mem_firstOccsAux]
  simp

theorem nodup_firstOccs (F : List FrontFace) : (firstOccs F).Nodup := by
  have : ∀ (P : List FrontFace) (a : List (Nat × Nat)), a.Nodup →
      (firstOccsAux P a).Nodup := by
    intro P
    induction P with
    | nil => intro a h; simpa [firstOccsAux]
    | cons f rest ih =>
      intro a h
      exact ih (addEdges a f.edges) (nodup_addEdges f.edges a h)
  exact this F [] (by simp)

theorem firstOccsAux_append_single (P : List FrontFace) (f : FrontFace) :
    ∀ a : List (Nat × Nat),
      firstOccsAux (P ++ [f]) a = addEdges (firstOccsAux P a) f.edges := by
  induction P with
  | nil => intro a; rfl
  | cons g rest ih => intro a; exact ih (addEdges a g.edges)

theorem addEdges_append_single (es : List (Nat × Nat)) (e : Nat × Nat) :
    ∀ a : List (Nat × Nat),
      addEdges a (es ++ [e]) = addEdge (addEdges a es) e := by
  induction es with
  | nil => intro a; rfl
  | cons x rest ih => intro a; exact ih (addEdge a x)

/-- Number of front faces containing edge `e`. -/
def occCount : List FrontFace → (Nat × Nat) → Nat
  | [], _ => 0
  | f :: rest, e => (if e ∈ f.edges then 1 else 0) + occCount rest e

theorem occCount_append (P Q : List FrontFace) (e : Nat × Nat) :
    occCount (P ++ Q) e = occCount P e + occCount Q e := by
  induction P with
  | nil => simp [occCount]
  | cons f rest ih => simp [occCount, ih]; omega

theorem occCount_pos_iff (P : List FrontFace) (e : Nat × Nat) :
    0 < occCount P e ↔ ∃ f, f ∈ P ∧ e ∈ f.edges := by
  induction P with
  | nil => simp [occCount]
  | cons f rest ih =>
    by_cases h : e ∈ f.edges
    · simp only [occCount, if_pos h]
      constructor
      · intro _; exact ⟨f, List.mem_cons_self f rest, h⟩
      · intro _; omega
    · simp only [occCount, if_neg h]
      rw [Nat.zero_add, ih]
      constructor
      · rintro ⟨g, hg, hge⟩
        exact ⟨g, List.mem_cons_of_mem f hg, hge⟩
      · rintro ⟨g, hg, hge⟩
        rcases List.mem_cons.mp hg with rfl | hg2
        · exact absurd hge h
        · exact ⟨g, hg2, hge⟩

/-- Index of the last face (counting from `i`) whose edge list contains `e`. -/
def lastOccAux : List FrontFace → Nat → (Nat × Nat) → Option Nat
  | [], _, _ => none
  | f :: rest, i, e =>
    match lastOccAux rest (i + 1) e with
    | some j => some j
    | none => if e ∈ f.edges then some i else none

theorem lastOccAux_append_single (P : List FrontFace) (f : FrontFace)
    (e : Nat × Nat) :
    ∀ i : Nat, lastOccAux (P ++ [f]) i e =
      if e ∈ f.edges then some (i + P.length) else lastOccAux P i e := by
  induction P with
  | nil =>
    intro i
    by_cases h : e ∈ f.edges <;> simp [lastOccAux, h]
  | cons g rest ih =>
    intro i
    simp only [List.cons_append, lastOccAux]
    rw [List.append_eq, ih (i + 1)]
    by_cases h : e ∈ f.edges
    · simp only [if_pos h, List.length_cons]
      have h2 : i + 1 + rest.length = i + (rest.length + 1) := by omega
      rw [h2]
    · simp only [if_neg h]

/-- The neighbour value the layer run leaves on the side-face record of edge
`e` after the faces of `P` have all been processed: the last processing cell
when at least two faces of `P` contain `e`, else none. -/
def nbExp (nc0 : Nat) (P : List FrontFace) (e : Nat × Nat) : Option Nat :=
  if 2 ≤ occCount P e then (lastOccAux P 0 e).map (fun j => nc0 + j) else none

/-- Index of the first face of `F` whose edge list contains `e`. -/
def firstFaceIdx : List FrontFace → (Nat × Nat) → Nat
  | [], _ => 0
  | f :: rest, e => if e ∈ f.edges then 0 else firstFaceIdx rest e + 1

theorem firstFaceIdx_eq_of (F : List FrontFace) (e : Nat × Nat) :
    ∀ k, (∀ j, j < k → e ∉ (F.getD j dFront).edges) → k < F.length →
      e ∈ (F.getD k dFront).edges → firstFaceIdx F e = k := by
  induction F with
  | nil => intro k _ hk; simp at hk
  | cons f rest ih =>
    intro k hnot hk hin
    cases k with
    | zero => simp only [firstFaceIdx, if_pos (by simpa using hin)]
    | succ m =>
      have hf : e ∉ f.edges := by
        have := hnot 0 (by omega)
        simpa using this
      simp only [firstFaceIdx, if_neg hf]
      have := ih m (fun j hj => by simpa using hnot (j + 1) (by omega))
        (by simpa using hk) (by simpa using hin)
      omega

/-- Vertex loop of mesh face `i` in a face list. -/
def bmVL (bm : List BFace) (i : Nat) : List Nat := (bm.getD i dummyBFace).verts

/-- `j`-th created mesh face (absolute index `nf0 + j`) is the side-face quad
of edge `e`: its vertex loop is the quad list or its reversal. -/
def isQuadOf (c : Ctx) (nf0 : Nat) (bm : List BFace) (e : Nat × Nat) (j : Nat) :
    Prop :=
  nf0 + j < bm.length ∧
  (bmVL bm (nf0 + j) = quadList c.vm e ∨
   bmVL bm (nf0 + j) = (quadList c.vm e).reverse)

/-- The winding the layer builder gives the side face of edge `e`: the quad
list, reversed exactly when the orientation test of the first face processing
`e` fires. -/
def expectedWinding (c : Ctx) (F : List FrontFace) (e : Nat × Nat) : List Nat :=
  if flip_decision c (F.getD (firstFaceIdx F e) dFront) e
  then (quadList c.vm e).reverse else quadList c.vm e

/-- Two vertex lists carry the same vertex set. -/
def sameVertSet (a b : List Nat) : Prop := ∀ v, v ∈ a ↔ v ∈ b

/-- The neighbour value expected on the record of `e` while face `k` is being
processed and `m` of its edges are done. -/
def nbCur (F : List FrontFace) (nc0 k m : Nat) (e : Nat × Nat) : Option Nat :=
  if e ∈ (F.getD k dFront).edges.take m ∧ 0 < occCount (F.take k) e
  then some (nc0 + k) else nbExp nc0 (F.take k) e

end UGX

namespace UGX

/-! ## Layer-builder invariant: quad-identification lemmas -/

theorem mem_quadList (vm : Nat → Nat) (e : Nat × Nat) (v : Nat) :
    v ∈ quadList vm e ↔ v = e.1 ∨ v = vm e.1 ∨ v = vm e.2 ∨ v = e.2 := by
  simp [quadList]

/-- Two edges of the front whose quads have one vertex set are the same edge:
new vertices are fresh and injective images, the endpoints are distinct, and
a shared geometric edge never appears with both orientations. -/
theorem quad_subset_eq (c : Ctx) (F : List FrontFace) (st0 : LayerState)
    (hwf : WF c F st0) (e e2 : Nat × Nat)
    (he : validEdge F e) (he2 : validEdge F e2)
    (hsub : ∀ v ∈ quadList c.vm e, v ∈ quadList c.vm e2) : e = e2 := by
  obtain ⟨f, hf, hef⟩ := he
  obtain ⟨g, hg, heg⟩ := he2
  have h1f : e.1 ∈ frontVerts F := hwf.ends_mem1 f hf e hef
  have h2f : e.2 ∈ frontVerts F := hwf.ends_mem2 f hf e hef
  have h1g : e2.1 ∈ frontVerts F := hwf.ends_mem1 g hg e2 heg
  have h2g : e2.2 ∈ frontVerts F := hwf.ends_mem2 g hg e2 heg
  have hne : e.1 ≠ e.2 := hwf.ends_ne f hf e hef
  have q1 := (mem_quadList c.vm e2 e.1).mp (hsub e.1 (by simp [quadList]))
  have q4 := (mem_quadList c.vm e2 e.2).mp (hsub e.2 (by simp [quadList]))
  have hv1 : e.1 ≠ c.vm e2.1 := fun h => hwf.vm_fresh e2.1 h1g e.1 h1f h.symm
  have hv2 : e.1 ≠ c.vm e2.2 := fun h => hwf.vm_fresh e2.2 h2g e.1 h1f h.symm
  have hw1 : e.2 ≠ c.vm e2.1 := fun h => hwf.vm_fresh e2.1 h1g e.2 h2f h.symm
  have hw2 : e.2 ≠ c.vm e2.2 := fun h => hwf.vm_fresh e2.2 h2g e.2 h2f h.symm
  have c1 : e.1 = e2.1 ∨ e.1 = e2.2 := by tauto
  have c2 : e.2 = e2.1 ∨ e.2 = e2.2 := by tauto
  rcases c1 with c1 | c1 <;> rcases c2 with c2 | c2
  · exact absurd (c1.trans c2.symm) hne
  · exact Prod.ext_iff.mpr ⟨c1, c2⟩
  · exact absurd ⟨c2.symm, c1.symm⟩ (hwf.edges_cons f hf g hg e hef e2 heg)
  · exact absurd (c1.trans c2.symm) hne

/-- A quad of a front edge is never contained in a top cap face's vertex set:
top faces carry only fresh new vertices, while the quad contains the old
endpoint `e.1`. -/
theorem quad_not_sub_top (c : Ctx) (F : List FrontFace) (st0 : LayerState)
    (hwf : WF c F st0) (e : Nat × Nat) (he : validEdge F e) (f : FrontFace)
    (hf : f ∈ F) (hsub : ∀ v ∈ quadList c.vm e, v ∈ f.verts.map c.vm) :
    False := by
  obtain ⟨g, hg, heg⟩ := he
  have h1 : e.1 ∈ frontVerts F := hwf.ends_mem1 g hg e heg
  have hm := hsub e.1 (by simp [quadList])
  rcases List.mem_map.mp hm with ⟨w, hw, hww⟩
  exact hwf.vm_fresh w (mem_frontVerts F f w hf hw) e.1 h1 hww

/-- Vertex-set membership of a quad record equals that of its quad list. -/
theorem isQuadOf_mem_iff (c : Ctx) (nf0 : Nat) (bm : List BFace)
    (e : Nat × Nat) (j : Nat) (h : isQuadOf c nf0 bm e j) :
    ∀ v, v ∈ bmVL bm (nf0 + j) ↔ v ∈ quadList c.vm e := by
  intro v
  rcases h.2 with h2 | h2
  · rw [h2]
  · rw [h2]
    exact List.mem_reverse

/-- Two edges with the same record index are equal. -/
theorem quad_eq_of_same_idx (c : Ctx) (F : List FrontFace) (st0 : LayerState)
    (hwf : WF c F st0) (nf0 : Nat) (bm : List BFace) (e e2 : Nat × Nat)
    (he : validEdge F e) (he2 : validEdge F e2) (j : Nat)
    (h1 : isQuadOf c nf0 bm e j) (h2 : isQuadOf c nf0 bm e2 j) : e = e2 := by
  refine quad_subset_eq c F st0 hwf e e2 he he2 (fun v hv => ?_)
  exact (isQuadOf_mem_iff c nf0 bm e2 j h2 v).mp
    ((isQuadOf_mem_iff c nf0 bm e j h1 v).mpr hv)

/-- A created face cannot be both a quad record and a top cap face. -/
theorem quad_ne_top (c : Ctx) (F : List FrontFace) (st0 : LayerState)
    (hwf : WF c F st0) (nf0 : Nat) (bm : List BFace) (e : Nat × Nat)
    (he : validEdge F e) (f : FrontFace) (hf : f ∈ F) (j : Nat)
    (h1 : isQuadOf c nf0 bm e j) (h2 : bmVL bm (nf0 + j) = f.verts.map c.vm) :
    False := by
  refine quad_not_sub_top c F st0 hwf e he f hf (fun v hv => ?_)
  rw [← h2]
  exact (isQuadOf_mem_iff c nf0 bm e j h1 v).mpr hv

theorem subList_iff (vs ws : List Nat) :
    subList vs ws = true ↔ ∀ v ∈ vs, v ∈ ws := by
  simp [subList, List.all_eq_true, List.elem_iff]

/-! ## Layer-builder invariant: search characterizations -/

theorem getD_drop_own {α : Type} (l : List α) :
    ∀ (i k : Nat) (d : α), (l.drop i).getD k d = l.getD (i + k) d := by
  induction l with
  | nil => intro i k d; simp
  | cons a t ih =>
    intro i k d
    cases i with
    | zero => simp
    | succ m =>
      have h2 : m + 1 + k = (m + k) + 1 := by omega
      rw [List.drop_succ_cons, ih m k d, h2, List.getD_cons_succ]

theorem scanAux_eq_some (p : BFace → Bool) :
    ∀ (l : List BFace) (i j : Nat), scanAux p l i = some j →
      ∃ k, k < l.length ∧ j = i + k ∧ p (l.getD k dummyBFace) = true ∧
        ∀ m, m < k → p (l.getD m dummyBFace) = false := by
  intro l
  induction l with
  | nil => intro i j h; cases h
  | cons bf rest ih =>
    intro i j h
    by_cases hp : p bf = true
    · refine ⟨0, by simp, ?_, by simpa using hp, by omega⟩
      rw [scanAux, if_pos hp] at h
      injection h with h
      omega
    · have hp2 : p bf = false := by
        revert hp; cases p bf <;> simp
      rw [scanAux, if_neg hp] at h
      obtain ⟨k, hk, hj, hpk, hmin⟩ := ih (i + 1) j h
      refine ⟨k + 1, by simpa using hk, by omega, by simpa using hpk, ?_⟩
      intro m hm
      cases m with
      | zero => simpa using hp2
      | succ m2 => simpa using hmin m2 (by omega)

theorem scanAux_eq_some_of (p : BFace → Bool) :
    ∀ (l : List BFace) (i k : Nat), k < l.length →
      p (l.getD k dummyBFace) = true →
      (∀ m, m < k → p (l.getD m dummyBFace) = false) →
      scanAux p l i = some (i + k) := by
  intro l
  induction l with
  | nil => intro i k hk; simp at hk
  | cons bf rest ih =>
    intro i k hk hpk hmin
    cases k with
    | zero =>
      rw [List.getD_cons_zero] at hpk
      rw [scanAux, if_pos hpk]
      simp
    | succ m =>
      have h0 : p bf = false := by simpa using hmin 0 (by omega)
      have hrec : scanAux p rest (i + 1) = some (i + 1 + m) :=
        ih (i + 1) m (by simpa using hk) (by simpa using hpk)
          (fun m2 hm2 => by simpa using hmin (m2 + 1) (by omega))
      rw [scanAux, if_neg (by simp [h0]), hrec]
      congr 1
      omega

theorem findUgAux_eq_some (fi : Nat) :
    ∀ (l : List UGFace) (i j : Nat), findUgAux fi l i = some j →
      ∃ k, k < l.length ∧ j = i + k ∧ (l.getD k dummyUGFace).bi = fi ∧
        ∀ m, m < k → (l.getD m dummyUGFace).bi ≠ fi := by
  intro l
  induction l with
  | nil => intro i j h; cases h
  | cons u rest ih =>
    intro i j h
    by_cases hp : u.bi = fi
    · refine ⟨0, by simp, ?_, by simpa using hp, by omega⟩
      rw [findUgAux, if_pos hp] at h
      injection h with h
      omega
    · rw [findUgAux, if_neg hp] at h
      obtain ⟨k, hk, hj, hpk, hmin⟩ := ih (i + 1) j h
      refine ⟨k + 1, by simpa using hk, by omega, by simpa using hpk, ?_⟩
      intro m hm
      cases m with
      | zero => simpa using hp
      | succ m2 => simpa using hmin m2 (by omega)

theorem findUgAux_eq_some_of (fi : Nat) :
    ∀ (l : List UGFace) (i k : Nat), k < l.length →
      (l.getD k dummyUGFace).bi = fi →
      (∀ m, m < k → (l.getD m dummyUGFace).bi ≠ fi) →
      findUgAux fi l i = some (i + k) := by
  intro l
  induction l with
  | nil => intro i k hk; simp at hk
  | cons u rest ih =>
    intro i k hk hpk hmin
    cases k with
    | zero =>
      rw [List.getD_cons_zero] at hpk
      rw [findUgAux, if_pos hpk]
      simp
    | succ m =>
      have h0 : u.bi ≠ fi := by simpa using hmin 0 (by omega)
      have hrec : findUgAux fi rest (i + 1) = some (i + 1 + m) :=
        ih (i + 1) m (by simpa using hk) (by simpa using hpk)
          (fun m2 hm2 => by simpa using hmin (m2 + 1) (by omega))
      rw [findUgAux, if_neg h0, hrec]
      congr 1
      omega

theorem findUgAux_ex (fi : Nat) :
    ∀ (l : List UGFace) (i : Nat),
      (∃ k, k < l.length ∧ (l.getD k dummyUGFace).bi = fi) →
      ∃ j, findUgAux fi l i = some j := by
  intro l
  induction l with
  | nil =>
    rintro i ⟨k, hk, _⟩
    simp at hk
  | cons u rest ih =>
    rintro i ⟨k, hk, hbi⟩
    by_cases hp : u.bi = fi
    · exact ⟨i, by rw [findUgAux, if_pos hp]⟩
    · cases k with
      | zero => exact absurd (by simpa using hbi) hp
      | succ m =>
        obtain ⟨j, hj⟩ := ih (i + 1) ⟨m, by simpa using hk, by simpa using hbi⟩
        exact ⟨j, by rw [findUgAux, if_neg hp, hj]⟩

end UGX

namespace UGX

/-! ## Layer-builder invariant: core invariant and state extension -/

theorem ugAt_def (st : LayerState) (u : Nat) :
    ugAt st u = st.ugfaces.getD u dummyUGFace := rfl

theorem bmVL_def (bm : List BFace) (i : Nat) :
    bmVL bm i = (bm.getD i dummyBFace).verts := rfl

theorem cellAt_def (st : LayerState) (j : Nat) :
    cellAt st j = st.ugcells.getD j [] := rfl

theorem getD_length_le {α : Type} (l : List α) (i : Nat) (d : α)
    (h : l.length ≤ i) : l.getD i d = d := by
  induction l generalizing i with
  | nil => simp
  | cons a t ih =>
    cases i with
    | zero => simp at h
    | succ m => simpa using ih m (by simpa using h)

/-- The running invariant of one `create_faces` layer over start state `st0`:
grid faces are created in lockstep with mesh faces (`bi` points at the paired
mesh face), `processed_edges` equals the expected list `pe`, every created
mesh face is either the unique side-face quad record of a processed edge or a
top cap face, and each record carries the expected winding, owner and
neighbour (`nbS`). -/
structure Core (c : Ctx) (F : List FrontFace) (st0 : LayerState)
    (pe : List (Nat × Nat)) (nbS : (Nat × Nat) → Option Nat)
    (st : LayerState) : Prop where
  bm_le : st0.bm.length ≤ st.bm.length
  ug_len : st.ugfaces.length = st0.ugfaces.length + (st.bm.length - st0.bm.length)
  old_bi : ∀ u, u < st0.ugfaces.length → (ugAt st u).bi = (ugAt st0 u).bi
  lockstep_bi : ∀ j, j < st.bm.length - st0.bm.length →
    (ugAt st (st0.ugfaces.length + j)).bi = st0.bm.length + j
  lockstep_verts : ∀ j, j < st.bm.length - st0.bm.length →
    (ugAt st (st0.ugfaces.length + j)).verts = bmVL st.bm (st0.bm.length + j)
  proc_eq : st.processed = pe
  proc_nodup : pe.Nodup
  proc_valid : ∀ e ∈ pe, validEdge F e
  classify : ∀ j, j < st.bm.length - st0.bm.length →
    (∃ e ∈ pe, isQuadOf c st0.bm.length st.bm e j) ∨
    (∃ f ∈ F, bmVL st.bm (st0.bm.length + j) = f.verts.map c.vm)
  rec_ex : ∀ e ∈ pe, ∃ j, isQuadOf c st0.bm.length st.bm e j
  rec_uniq : ∀ e ∈ pe, ∀ j j2, isQuadOf c st0.bm.length st.bm e j →
    isQuadOf c st0.bm.length st.bm e j2 → j = j2
  rec_wind : ∀ e ∈ pe, ∀ j, isQuadOf c st0.bm.length st.bm e j →
    bmVL st.bm (st0.bm.length + j) = expectedWinding c F e
  rec_owner : ∀ e ∈ pe, ∀ j, isQuadOf c st0.bm.length st.bm e j →
    (ugAt st (st0.ugfaces.length + j)).owner =
      some (st0.ugcells.length + firstFaceIdx F e)
  rec_nb : ∀ e ∈ pe, ∀ j, isQuadOf c st0.bm.length st.bm e j →
    (ugAt st (st0.ugfaces.length + j)).neighbour = nbS e

/-- Completed cell `j` of the layer: its face set is the side records (one per
edge of its base face, in order), then the base grid face, then the top cap
face, all distinct. -/
def DoneCell (c : Ctx) (F : List FrontFace) (st0 : LayerState) (j : Nat)
    (st : LayerState) : Prop :=
  ∃ sides b t, cellAt st (st0.ugcells.length + j) = sides ++ [b, t] ∧
    sides.length = (F.getD j dFront).edges.length ∧
    (sides ++ [b, t]).Nodup ∧
    b < st0.ugfaces.length ∧
    (ugAt st b).bi = (F.getD j dFront).fi ∧
    st0.ugfaces.length ≤ t ∧ t < st.ugfaces.length ∧
    (ugAt st t).verts = (F.getD j dFront).verts.map c.vm ∧
    (ugAt st t).owner = some (st0.ugcells.length + j) ∧
    (∀ i, i < sides.length → ∃ jr,
      isQuadOf c st0.bm.length st.bm ((F.getD j dFront).edges.getD i dEdge) jr ∧
      sides.getD i 0 = st0.ugfaces.length + jr)

/-- Monotone state extension: indices stay valid and the vertex loops, owners
and mesh indices of existing faces are unchanged (only neighbours, selection
flags and fresh appends may differ). -/
structure Ext (st st2 : LayerState) : Prop where
  bm_le : st.bm.length ≤ st2.bm.length
  bm_verts : ∀ i, i < st.bm.length → bmVL st2.bm i = bmVL st.bm i
  ug_le : st.ugfaces.length ≤ st2.ugfaces.length
  ug_verts : ∀ u, u < st.ugfaces.length → (ugAt st2 u).verts = (ugAt st u).verts
  ug_owner : ∀ u, u < st.ugfaces.length → (ugAt st2 u).owner = (ugAt st u).owner
  ug_bi : ∀ u, u < st.ugfaces.length → (ugAt st2 u).bi = (ugAt st u).bi

theorem Ext.refl (st : LayerState) : Ext st st :=
  ⟨le_refl _, fun _ _ => rfl, le_refl _, fun _ _ => rfl, fun _ _ => rfl,
   fun _ _ => rfl⟩

theorem Ext.trans (st st2 st3 : LayerState) (h1 : Ext st st2)
    (h2 : Ext st2 st3) : Ext st st3 := by
  refine ⟨le_trans h1.bm_le h2.bm_le, ?_, le_trans h1.ug_le h2.ug_le, ?_, ?_, ?_⟩
  · intro i hi
    rw [h2.bm_verts i (lt_of_lt_of_le hi h1.bm_le), h1.bm_verts i hi]
  · intro u hu
    rw [h2.ug_verts u (lt_of_lt_of_le hu h1.ug_le), h1.ug_verts u hu]
  · intro u hu
    rw [h2.ug_owner u (lt_of_lt_of_le hu h1.ug_le), h1.ug_owner u hu]
  · intro u hu
    rw [h2.ug_bi u (lt_of_lt_of_le hu h1.ug_le), h1.ug_bi u hu]

theorem ext_of_append (st st2 : LayerState) (X : List BFace) (Y : List UGFace)
    (hb : st2.bm = st.bm ++ X) (hu : st2.ugfaces = st.ugfaces ++ Y) :
    Ext st st2 := by
  refine ⟨by rw [hb]; simp, ?_, by rw [hu]; simp, ?_, ?_, ?_⟩
  · intro i hi
    rw [bmVL_def, bmVL_def, hb, getD_append_lt _ _ _ _ hi]
  · intro u hu2
    rw [ugAt_def, ugAt_def, hu, getD_append_lt _ _ _ _ hu2]
  · intro u hu2
    rw [ugAt_def, ugAt_def, hu, getD_append_lt _ _ _ _ hu2]
  · intro u hu2
    rw [ugAt_def, ugAt_def, hu, getD_append_lt _ _ _ _ hu2]

theorem ext_of_set_neighbour (st st2 : LayerState) (u0 : Nat) (nb : Option Nat)
    (hb : st2.bm = st.bm)
    (hu : st2.ugfaces = st.ugfaces.set u0
      { st.ugfaces.getD u0 dummyUGFace with neighbour := nb }) : Ext st st2 := by
  have hlen : st2.ugfaces.length = st.ugfaces.length := by
    rw [hu, List.length_set]
  have hfield : ∀ u, u < st.ugfaces.length →
      (ugAt st2 u).verts = (ugAt st u).verts ∧
      (ugAt st2 u).owner = (ugAt st u).owner ∧
      (ugAt st2 u).bi = (ugAt st u).bi := by
    intro u hu2
    by_cases he : u0 = u
    · subst he
      rw [ugAt_def, ugAt_def, hu, getD_set_eq _ _ _ _ hu2]
      exact ⟨rfl, rfl, rfl⟩
    · rw [ugAt_def, ugAt_def, hu, getD_set_ne _ _ _ _ _ he]
      exact ⟨rfl, rfl, rfl⟩
  refine ⟨by rw [hb], ?_, by rw [hlen], ?_, ?_, ?_⟩
  · intro i hi
    rw [hb]
  · intro u hu2
    exact (hfield u hu2).1
  · intro u hu2
    exact (hfield u hu2).2.1
  · intro u hu2
    exact (hfield u hu2).2.2

theorem length_setSelect (bm : List BFace) (i0 : Nat) (b : Bool) :
    (setSelect bm i0 b).length = bm.length := by
  rw [setSelect, List.length_set]

theorem bmVL_setSelect (bm : List BFace) (i0 : Nat) (b : Bool) (i : Nat) :
    bmVL (setSelect bm i0 b) i = bmVL bm i := by
  by_cases he : i0 = i
  · subst he
    by_cases hlt : i0 < bm.length
    · rw [bmVL_def, bmVL_def, setSelect, getD_set_eq _ _ _ _ hlt]
    · rw [bmVL_def, bmVL_def, setSelect]
      rw [getD_length_le _ _ _ (by rw [List.length_set]; omega),
        getD_length_le _ _ _ (by omega)]
  · rw [bmVL_def, bmVL_def, setSelect, getD_set_ne _ _ _ _ _ he]

theorem ext_of_setSelect (st st2 : LayerState) (i0 : Nat) (b : Bool)
    (hb : st2.bm = setSelect st.bm i0 b) (hu : st2.ugfaces = st.ugfaces) :
    Ext st st2 := by
  refine ⟨by rw [hb, length_setSelect], ?_, by rw [hu], ?_, ?_, ?_⟩
  · intro i hi
    rw [hb, bmVL_setSelect]
  · intro u hu2; rw [ugAt_def, ugAt_def, hu]
  · intro u hu2; rw [ugAt_def, ugAt_def, hu]
  · intro u hu2; rw [ugAt_def, ugAt_def, hu]

theorem isQuadOf_ext (c : Ctx) (nf0 : Nat) (st st2 : LayerState)
    (hx : Ext st st2) (e : Nat × Nat) (j : Nat)
    (h : isQuadOf c nf0 st.bm e j) : isQuadOf c nf0 st2.bm e j := by
  refine ⟨lt_of_lt_of_le h.1 hx.bm_le, ?_⟩
  rw [hx.bm_verts _ h.1]
  exact h.2

theorem DoneCell_ext (c : Ctx) (F : List FrontFace) (st0 : LayerState)
    (j : Nat) (st st2 : LayerState) (hd : DoneCell c F st0 j st)
    (hx : Ext st st2) (hb0 : st0.ugfaces.length ≤ st.ugfaces.length)
    (hcell : cellAt st2 (st0.ugcells.length + j) = cellAt st (st0.ugcells.length + j)) :
    DoneCell c F st0 j st2 := by
  obtain ⟨sides, b, t, hc, hlen, hnd, hblt, hbbi, htge, htlt, htv, hto, hsid⟩ := hd
  refine ⟨sides, b, t, by rw [hcell]; exact hc, hlen, hnd, hblt, ?_, htge,
    lt_of_lt_of_le htlt hx.ug_le, ?_, ?_, ?_⟩
  · rw [hx.ug_bi b (lt_of_lt_of_le hblt hb0)]
    exact hbbi
  · rw [hx.ug_verts t htlt]
    exact htv
  · rw [hx.ug_owner t htlt]
    exact hto
  · intro i hi
    obtain ⟨jr, hq, hs⟩ := hsid i hi
    exact ⟨jr, isQuadOf_ext c st0.bm.length st st2 hx _ jr hq, hs⟩

end UGX

namespace UGX

/-- Under the invariant, the face scan for a processed edge finds exactly its
record: the record satisfies the containment test and, by classification and
freshness/injectivity of new vertices, no other created face can. -/
theorem scan_finds (c : Ctx) (F : List FrontFace) (st0 : LayerState)
    (pe : List (Nat × Nat)) (nbS : (Nat × Nat) → Option Nat) (st : LayerState)
    (hwf : WF c F st0) (hc : Core c F st0 pe nbS st) (e : Nat × Nat)
    (he : e ∈ pe) (jrec : Nat) (hq : isQuadOf c st0.bm.length st.bm e jrec) :
    scanFrom st.bm st0.bm.length (quadList c.vm e) =
      some (st0.bm.length + jrec) := by
  unfold scanFrom
  have hjlt : jrec < st.bm.length - st0.bm.length := by
    have := hq.1
    omega
  apply scanAux_eq_some_of
  · rw [List.length_drop]
    omega
  · rw [getD_drop_own]
    rw [subList_iff]
    intro v hv
    exact (isQuadOf_mem_iff c st0.bm.length st.bm e jrec hq v).mpr hv
  · intro m hm
    by_contra hfalse
    have htrue : subList (quadList c.vm e)
        ((st.bm.drop st0.bm.length).getD m dummyBFace).verts = true := by
      revert hfalse
      cases subList (quadList c.vm e)
          ((st.bm.drop st0.bm.length).getD m dummyBFace).verts <;> simp
    rw [getD_drop_own] at htrue
    rw [subList_iff] at htrue
    have htrue2 : ∀ v ∈ quadList c.vm e, v ∈ bmVL st.bm (st0.bm.length + m) :=
      fun v hv => htrue v hv
    have hmlt : m < st.bm.length - st0.bm.length := by omega
    rcases hc.classify m hmlt with ⟨e3, he3, hq3⟩ | ⟨f, hf, htop⟩
    · have he_eq : e = e3 := by
        refine quad_subset_eq c F st0 hwf e e3 (hc.proc_valid e he)
          (hc.proc_valid e3 he3) (fun v hv => ?_)
        exact (isQuadOf_mem_iff c st0.bm.length st.bm e3 m hq3 v).mp (htrue2 v hv)
      have : m = jrec := hc.rec_uniq e he m jrec (he_eq ▸ hq3) hq
      omega
    · refine quad_not_sub_top c F st0 hwf e (hc.proc_valid e he) f hf
        (fun v hv => ?_)
      rw [← htop]
      exact htrue2 v hv

/-- Under the invariant, the grid-face lookup by the record's mesh index
returns exactly the record's grid face: old grid faces point below `nf0` and
created ones carry pairwise distinct indices. -/
theorem lookup_record (c : Ctx) (F : List FrontFace) (st0 : LayerState)
    (pe : List (Nat × Nat)) (nbS : (Nat × Nat) → Option Nat) (st : LayerState)
    (hwf : WF c F st0) (hc : Core c F st0 pe nbS st) (jrec : Nat)
    (hjlt : jrec < st.bm.length - st0.bm.length) :
    get_ugface_from_face_index st.ugfaces (st0.bm.length + jrec) =
      some (st0.ugfaces.length + jrec) := by
  unfold get_ugface_from_face_index
  have h := findUgAux_eq_some_of (st0.bm.length + jrec) st.ugfaces 0
    (st0.ugfaces.length + jrec)
    (by rw [hc.ug_len]; omega)
    (by have h4 := hc.lockstep_bi jrec hjlt; rw [ugAt_def] at h4; exact h4)
    (by
      intro m hm hcon
      by_cases hmu : m < st0.ugfaces.length
      · have h1 := hc.old_bi m hmu
        have h2 : (ugAt st0 m).bi < st0.bm.length :=
          hwf.old_bi_lt _ (getD_mem_own _ _ _ hmu)
        rw [ugAt_def] at h1
        rw [h1] at hcon
        omega
      · have hj2 : m - st0.ugfaces.length < st.bm.length - st0.bm.length := by
          omega
        have h3 := hc.lockstep_bi (m - st0.ugfaces.length) hj2
        rw [ugAt_def] at h3
        have hmeq : st0.ugfaces.length + (m - st0.ugfaces.length) = m := by
          omega
        rw [hmeq] at h3
        rw [h3] at hcon
        omega)
  simpa using h

/-- Under the invariant, the grid-face lookup by a front face's mesh index
succeeds and returns a pre-existing grid face carrying that index. -/
theorem lookup_base (c : Ctx) (F : List FrontFace) (st0 : LayerState)
    (pe : List (Nat × Nat)) (nbS : (Nat × Nat) → Option Nat) (st : LayerState)
    (hwf : WF c F st0) (hc : Core c F st0 pe nbS st) (f : FrontFace)
    (hf : f ∈ F) :
    ∃ oi, get_ugface_from_face_index st.ugfaces f.fi = some oi ∧
      oi < st0.ugfaces.length ∧ (ugAt st oi).bi = f.fi := by
  obtain ⟨u, hu, hub⟩ := hwf.base_found f hf
  obtain ⟨k0, hk0, hgd⟩ := mem_getD_own st0.ugfaces u dummyUGFace hu
  have hmatch : (st.ugfaces.getD k0 dummyUGFace).bi = f.fi := by
    have h1 := hc.old_bi k0 hk0
    rw [ugAt_def, ugAt_def, hgd] at h1
    rw [h1, hub]
  have hk0lt : k0 < st.ugfaces.length := by
    rw [hc.ug_len]
    omega
  obtain ⟨j, hj⟩ := findUgAux_ex f.fi st.ugfaces 0 ⟨k0, hk0lt, hmatch⟩
  obtain ⟨k, hk, hj0, hbik, hmin⟩ := findUgAux_eq_some f.fi st.ugfaces 0 j hj
  have hjk : j = k := by omega
  have hfi : f.fi < st0.bm.length := hwf.base_lt f hf
  have hjn : j < st0.ugfaces.length := by
    by_contra hge
    push_neg at hge
    have hklen : k < st.ugfaces.length := hk
    have hj2 : j - st0.ugfaces.length < st.bm.length - st0.bm.length := by
      rw [hc.ug_len] at hklen
      omega
    have h3 := hc.lockstep_bi (j - st0.ugfaces.length) hj2
    rw [ugAt_def] at h3
    have hmeq : st0.ugfaces.length + (j - st0.ugfaces.length) = j := by omega
    rw [hmeq] at h3
    rw [← hjk] at hbik
    rw [hbik] at h3
    omega
  refine ⟨j, by simpa [get_ugface_from_face_index] using hj, hjn, ?_⟩
  rw [ugAt_def, hjk]
  exact hbik

end UGX

namespace UGX

/-! ## Layer-builder invariant: inner and outer invariants -/

/-- The cell table holds one (possibly still empty) cell per front face beyond
the pre-existing cells. -/
def cellsLen (F : List FrontFace) (st0 st : LayerState) : Prop :=
  st.ugcells.length = st0.ugcells.length + F.length

/-- Invariant while face `k` of the front is being processed and `m` of its
edges are done. -/
structure InnerInv (c : Ctx) (F : List FrontFace) (st0 : LayerState)
    (k m : Nat) (st : LayerState) : Prop where
  core : Core c F st0
    (addEdges (firstOccs (F.take k)) ((F.getD k dFront).edges.take m))
    (nbCur F st0.ugcells.length k m) st
  clen : cellsLen F st0 st
  done : ∀ j, j < k → DoneCell c F st0 j st
  todo : ∀ j, k < j → j < F.length → cellAt st (st0.ugcells.length + j) = []
  cur_len : (cellAt st (st0.ugcells.length + k)).length = m
  cur_ent : ∀ i, i < m → ∃ jr,
    isQuadOf c st0.bm.length st.bm ((F.getD k dFront).edges.getD i dEdge) jr ∧
    (cellAt st (st0.ugcells.length + k)).getD i 0 = st0.ugfaces.length + jr

/-- Invariant between faces: the first `k` front faces are fully processed. -/
structure OuterInv (c : Ctx) (F : List FrontFace) (st0 : LayerState) (k : Nat)
    (st : LayerState) : Prop where
  core : Core c F st0 (firstOccs (F.take k))
    (nbExp st0.ugcells.length (F.take k)) st
  clen : cellsLen F st0 st
  done : ∀ j, j < k → DoneCell c F st0 j st
  todo : ∀ j, k ≤ j → j < F.length → cellAt st (st0.ugcells.length + j) = []

theorem length_add_face_info (cells : List (List Nat)) (nc ufi : Nat) :
    (add_face_info cells nc ufi).length = cells.length := by
  unfold add_face_info
  by_cases h : ufi ∈ cells.getD nc []
  · rw [if_pos h]
  · rw [if_neg h, List.length_set]

theorem add_face_info_other (cells : List (List Nat)) (nc ufi j : Nat)
    (h : nc ≠ j) : (add_face_info cells nc ufi).getD j [] = cells.getD j [] := by
  unfold add_face_info
  by_cases hm : ufi ∈ cells.getD nc []
  · rw [if_pos hm]
  · rw [if_neg hm, getD_set_ne _ _ _ _ _ h]

theorem add_face_info_self (cells : List (List Nat)) (nc ufi : Nat)
    (hnc : nc < cells.length) (h : ufi ∉ cells.getD nc []) :
    (add_face_info cells nc ufi).getD nc [] = cells.getD nc [] ++ [ufi] := by
  unfold add_face_info
  rw [if_neg h, getD_set_eq _ _ _ _ hnc]

/-- `Core` only reads the neighbour map on processed edges. -/
theorem core_congr_nbS (c : Ctx) (F : List FrontFace) (st0 : LayerState)
    (pe : List (Nat × Nat)) (nbS nbS2 : (Nat × Nat) → Option Nat)
    (st : LayerState) (hc : Core c F st0 pe nbS st)
    (h : ∀ e ∈ pe, nbS e = nbS2 e) : Core c F st0 pe nbS2 st := by
  refine ⟨hc.bm_le, hc.ug_len, hc.old_bi, hc.lockstep_bi, hc.lockstep_verts,
    hc.proc_eq, hc.proc_nodup, hc.proc_valid, hc.classify, hc.rec_ex,
    hc.rec_uniq, hc.rec_wind, hc.rec_owner, ?_⟩
  intro e he j hj
  rw [← h e he]
  exact hc.rec_nb e he j hj

theorem take_k_length (F : List FrontFace) (k : Nat) (hk : k ≤ F.length) :
    (F.take k).length = k := by
  rw [List.length_take]
  omega

theorem firstOccs_take_succ (F : List FrontFace) (k : Nat) (hk : k < F.length) :
    firstOccs (F.take (k + 1)) =
      addEdges (firstOccs (F.take k)) ((F.getD k dFront).edges) := by
  rw [take_succ_getD F k dFront hk]
  unfold firstOccs
  rw [firstOccsAux_append_single]

theorem mem_take_iff_getD (F : List FrontFace) (k : Nat) (hk : k ≤ F.length)
    (f : FrontFace) : f ∈ F.take k ↔ ∃ j, j < k ∧ F.getD j dFront = f := by
  constructor
  · intro hf
    obtain ⟨i, hi, he⟩ := mem_getD_own (F.take k) f dFront hf
    rw [List.length_take] at hi
    have hik : i < k := lt_of_lt_of_le hi (min_le_left _ _)
    rw [getD_take_lt _ _ _ _ hik] at he
    exact ⟨i, hik, he⟩
  · rintro ⟨j, hj, he⟩
    have hmem := getD_mem_own (F.take k) j dFront
      (by rw [List.length_take]; omega)
    rw [getD_take_lt _ _ _ _ hj, he] at hmem
    exact hmem

theorem occ_zero_of_not_firstOccs (P : List FrontFace) (e : Nat × Nat)
    (h : e ∉ firstOccs P) : occCount P e = 0 := by
  by_contra hx
  have hpos : 0 < occCount P e := by omega
  exact h ((mem_firstOccs P e).mpr ((occCount_pos_iff P e).mp hpos))

theorem occ_pos_of_firstOccs (P : List FrontFace) (e : Nat × Nat)
    (h : e ∈ firstOccs P) : 0 < occCount P e :=
  (occCount_pos_iff P e).mpr ((mem_firstOccs P e).mp h)

theorem mem_take_succ_self {α : Type} (l : List α) (m : Nat) (d : α)
    (h : m < l.length) : l.getD m d ∈ l.take (m + 1) := by
  rw [take_succ_getD l m d h]
  simp

theorem nbCur_zero (F : List FrontFace) (nc0 k : Nat) (e : Nat × Nat) :
    nbCur F nc0 k 0 e = nbExp nc0 (F.take k) e := by
  unfold nbCur
  rw [if_neg]
  simp

theorem nbCur_step_ne (F : List FrontFace) (nc0 k m : Nat) (e2 : Nat × Nat)
    (hm : m < (F.getD k dFront).edges.length)
    (hne : e2 ≠ (F.getD k dFront).edges.getD m dEdge) :
    nbCur F nc0 k (m + 1) e2 = nbCur F nc0 k m e2 := by
  have hiff : e2 ∈ (F.getD k dFront).edges.take (m + 1) ↔
      e2 ∈ (F.getD k dFront).edges.take m := by
    rw [take_succ_getD _ m dEdge hm]
    simp only [List.mem_append, List.mem_singleton]
    constructor
    · rintro (h | h)
      · exact h
      · exact absurd h hne
    · exact Or.inl
  unfold nbCur
  by_cases hc2 : e2 ∈ (F.getD k dFront).edges.take m ∧
      0 < occCount (F.take k) e2
  · rw [if_pos hc2, if_pos ⟨hiff.mpr hc2.1, hc2.2⟩]
  · rw [if_neg hc2, if_neg (fun hx => hc2 ⟨hiff.mp hx.1, hx.2⟩)]

theorem nbCur_no_occ (F : List FrontFace) (nc0 k m2 : Nat) (e : Nat × Nat)
    (hocc : occCount (F.take k) e = 0) : nbCur F nc0 k m2 e = none := by
  unfold nbCur
  rw [if_neg (fun hx => by rw [hocc] at hx; exact absurd hx.2 (by omega))]
  unfold nbExp
  rw [if_neg (by intro hx; rw [hocc] at hx; omega)]

theorem nbCur_found (F : List FrontFace) (nc0 k m : Nat)
    (hm : m < (F.getD k dFront).edges.length)
    (hocc : 0 < occCount (F.take k) ((F.getD k dFront).edges.getD m dEdge)) :
    nbCur F nc0 k (m + 1) ((F.getD k dFront).edges.getD m dEdge) =
      some (nc0 + k) := by
  unfold nbCur
  rw [if_pos ⟨mem_take_succ_self _ m dEdge hm, hocc⟩]

theorem nbCur_end (F : List FrontFace) (nc0 k : Nat) (hk : k < F.length)
    (e : Nat × Nat) :
    nbCur F nc0 k ((F.getD k dFront).edges.length) e =
      nbExp nc0 (F.take (k + 1)) e := by
  have htake : F.take (k + 1) = F.take k ++ [F.getD k dFront] :=
    take_succ_getD F k dFront hk
  have hlen : (F.take k).length = k := take_k_length F k (by omega)
  unfold nbCur
  rw [List.take_length]
  by_cases hin : e ∈ (F.getD k dFront).edges
  · have h1 : occCount [F.getD k dFront] e = 1 := by
      show (if e ∈ (F.getD k dFront).edges then 1 else 0) + 0 = 1
      rw [if_pos hin]
    by_cases hocc : 0 < occCount (F.take k) e
    · rw [if_pos ⟨hin, hocc⟩]
      unfold nbExp
      rw [htake, occCount_append, h1]
      rw [if_pos (by omega)]
      rw [htake] at *
      rw [lastOccAux_append_single _ _ _ 0, if_pos hin, hlen]
      simp
    · rw [if_neg (fun hx => hocc hx.2)]
      have hocc0 : occCount (F.take k) e = 0 := by omega
      unfold nbExp
      rw [htake, occCount_append, h1, hocc0]
      rw [if_neg (by omega), if_neg (by omega)]
  · have h0 : occCount [F.getD k dFront] e = 0 := by
      show (if e ∈ (F.getD k dFront).edges then 1 else 0) + 0 = 0
      rw [if_neg hin]
    rw [if_neg (fun hx => hin hx.1)]
    unfold nbExp
    rw [htake, occCount_append, h0]
    rw [lastOccAux_append_single _ _ _ 0, if_neg hin]
    rw [Nat.add_zero]

end UGX

namespace UGX

/-- The winding `processEdge` gives a fresh side face. -/
def freshFaceVerts (c : Ctx) (f : FrontFace) (e : Nat × Nat) : List Nat :=
  if flip_decision c f e then (quadList c.vm e).reverse else quadList c.vm e

/-- The state `processEdge` produces for a fresh edge: record the edge, append
the (possibly flipped) quad mesh face, append its grid face owned by cell
`nc` with `bi` the new mesh index, and register it with cell `nc`. -/
def freshState (c : Ctx) (f : FrontFace) (nc : Nat) (st : LayerState)
    (e : Nat × Nat) : LayerState :=
  { st with
    processed := st.processed ++ [e],
    bm := st.bm ++ [{ verts := freshFaceVerts c f e, select := false }],
    ugfaces := st.ugfaces ++ [{ verts := freshFaceVerts c f e,
                                owner := some nc, neighbour := none,
                                deleted := false, bi := st.bm.length }],
    newfaces := st.newfaces ++ [st.ugfaces.length],
    ugcells := add_face_info st.ugcells nc st.ugfaces.length }

theorem processEdge_fresh_eq (c : Ctx) (f : FrontFace) (nc nf0 : Nat)
    (st : LayerState) (e : Nat × Nat) (hfresh : e ∉ st.processed) :
    processEdge c f nc nf0 st e = CF.ok (freshState c f nc st e) := by
  unfold processEdge freshState freshFaceVerts
  rw [if_neg hfresh]
  simp

theorem processEdge_fresh_inv (c : Ctx) (F : List FrontFace) (st0 : LayerState)
    (hwf : WF c F st0) (k m : Nat) (st : LayerState)
    (hk : k < F.length) (hm : m < (F.getD k dFront).edges.length)
    (hinv : InnerInv c F st0 k m st)
    (hfresh : (F.getD k dFront).edges.getD m dEdge ∉ st.processed) :
    InnerInv c F st0 k (m + 1)
      (freshState c (F.getD k dFront) (st0.ugcells.length + k) st
        ((F.getD k dFront).edges.getD m dEdge)) := by
  set f := F.getD k dFront with hf
  set e := f.edges.getD m dEdge with he
  set nf0 := st0.bm.length with hnf0
  set nu0 := st0.ugfaces.length with hnu0
  set nc0 := st0.ugcells.length with hnc0
  set st2 := freshState c f (nc0 + k) st e with hst2
  have hcore := hinv.core
  have hnu_le : nu0 ≤ st.ugfaces.length := by
    rw [hcore.ug_len]
    omega
  have hproc : st.processed = addEdges (firstOccs (F.take k)) (f.edges.take m) :=
    hcore.proc_eq
  have hfresh2 : e ∉ addEdges (firstOccs (F.take k)) (f.edges.take m) := by
    rw [← hproc]
    exact hfresh
  have hnotocc : e ∉ firstOccs (F.take k) := by
    intro hx
    exact hfresh2 ((mem_addEdges _ _ _).mpr (Or.inl hx))
  have hocc0 : occCount (F.take k) e = 0 := occ_zero_of_not_firstOccs _ _ hnotocc
  have hfmem : f ∈ F := by
    rw [hf]
    exact getD_mem_own F k dFront hk
  have hemem : e ∈ f.edges := by
    rw [he]
    exact getD_mem_own f.edges m dEdge hm
  have hvalid_e : validEdge F e := ⟨f, hfmem, hemem⟩
  have hffi : firstFaceIdx F e = k :=
    firstFaceIdx_eq_of F e k
      (fun j hj hjin => hnotocc ((mem_firstOccs _ _).mpr
        ⟨F.getD j dFront, (mem_take_iff_getD F k (by omega) _).mpr
          ⟨j, hj, rfl⟩, hjin⟩))
      hk (by rw [← hf]; exact hemem)
  set jnew := st.bm.length - nf0 with hjnew
  have hbmle : nf0 ≤ st.bm.length := hcore.bm_le
  have hidx : nf0 + jnew = st.bm.length := by omega
  have hug_eq : nu0 + jnew = st.ugfaces.length := by
    have h := hcore.ug_len
    omega
  have hbm2 : st2.bm = st.bm ++
      [{ verts := freshFaceVerts c f e, select := false }] := rfl
  have hug2 : st2.ugfaces = st.ugfaces ++
      [{ verts := freshFaceVerts c f e, owner := some (nc0 + k),
         neighbour := none, deleted := false, bi := st.bm.length }] := rfl
  have hproc2 : st2.processed = st.processed ++ [e] := rfl
  have hcells2 : st2.ugcells = add_face_info st.ugcells (nc0 + k)
      st.ugfaces.length := rfl
  have hExt : Ext st st2 := ext_of_append st st2 _ _ hbm2 hug2
  have hlen2 : st2.bm.length = st.bm.length + 1 := by
    rw [hbm2]
    simp
  have huglen2 : st2.ugfaces.length = st.ugfaces.length + 1 := by
    rw [hug2]
    simp
  have hrecsame : ∀ u, u < st.ugfaces.length → ugAt st2 u = ugAt st u := by
    intro u hu
    rw [ugAt_def, ugAt_def, hug2, getD_append_lt _ _ _ _ hu]
  have hvnew : bmVL st2.bm (nf0 + jnew) = freshFaceVerts c f e := by
    rw [hidx, hbm2, bmVL_def, getD_append_self]
  have hqnew : isQuadOf c nf0 st2.bm e jnew := by
    refine ⟨by omega, ?_⟩
    rw [hvnew]
    unfold freshFaceVerts
    by_cases hfd : flip_decision c f e
    · rw [if_pos hfd]
      exact Or.inr rfl
    · rw [if_neg hfd]
      exact Or.inl rfl
  have hugAtNew : ugAt st2 (nu0 + jnew) =
      { verts := freshFaceVerts c f e, owner := some (nc0 + k),
        neighbour := none, deleted := false, bi := st.bm.length } := by
    rw [ugAt_def, hug2, hug_eq, getD_append_self]
  have hdown : ∀ e3 j, j < jnew → isQuadOf c nf0 st2.bm e3 j →
      isQuadOf c nf0 st.bm e3 j := by
    intro e3 j hj hq
    refine ⟨by omega, ?_⟩
    rw [← hExt.bm_verts (nf0 + j) (by omega)]
    exact hq.2
  have hup : ∀ e3 j, isQuadOf c nf0 st.bm e3 j → isQuadOf c nf0 st2.bm e3 j :=
    fun e3 j hq => isQuadOf_ext c nf0 st st2 hExt e3 j hq
  have hnew_eq : ∀ e3, validEdge F e3 → isQuadOf c nf0 st2.bm e3 jnew →
      e3 = e :=
    fun e3 hv3 hq3 =>
      quad_eq_of_same_idx c F st0 hwf nf0 st2.bm e3 e hv3 hvalid_e jnew hq3 hqnew
  have hcharac : ∀ e3 j,
      (e3 ∈ addEdges (firstOccs (F.take k)) (f.edges.take m) ∨ e3 = e) →
      isQuadOf c nf0 st2.bm e3 j →
      (e3 ∈ addEdges (firstOccs (F.take k)) (f.edges.take m) ∧ j < jnew ∧
        isQuadOf c nf0 st.bm e3 j) ∨ (e3 = e ∧ j = jnew) := by
    intro e3 j hmem hq
    have hjle : j ≤ jnew := by
      have := hq.1
      rw [hlen2] at this
      omega
    by_cases hj : j = jnew
    · subst hj
      right
      refine ⟨?_, rfl⟩
      rcases hmem with hmem | hmem
      · exact hnew_eq e3 (hcore.proc_valid e3 hmem) hq
      · exact hmem
    · have hjlt : j < jnew := by omega
      have hqold := hdown e3 j hjlt hq
      rcases hmem with hmem | hmem
      · exact Or.inl ⟨hmem, hjlt, hqold⟩
      · exfalso
        rw [hmem] at hqold
        rcases hcore.classify j (by omega) with ⟨e4, he4, hq4⟩ | ⟨g, hg, htop⟩
        · have heq4 : e = e4 := quad_eq_of_same_idx c F st0 hwf nf0 st.bm e e4
            hvalid_e (hcore.proc_valid e4 he4) j hqold hq4
          rw [← heq4] at he4
          exact hfresh2 he4
        · exact quad_ne_top c F st0 hwf nf0 st.bm e hvalid_e g hg j hqold htop
  have hpe2 : addEdges (firstOccs (F.take k)) (f.edges.take (m + 1)) =
      addEdges (firstOccs (F.take k)) (f.edges.take m) ++ [e] := by
    rw [take_succ_getD f.edges m dEdge hm, ← he, addEdges_append_single]
    unfold addEdge
    rw [if_neg hfresh2]
  have hmemsplit : ∀ e3, e3 ∈ addEdges (firstOccs (F.take k)) (f.edges.take (m + 1)) →
      e3 ∈ addEdges (firstOccs (F.take k)) (f.edges.take m) ∨ e3 = e := by
    intro e3 he3
    rw [hpe2] at he3
    rcases List.mem_append.mp he3 with h | h
    · exact Or.inl h
    · exact Or.inr (by simpa using h)
  have hnc_lt : nc0 + k < st.ugcells.length := by
    have hcl := hinv.clen
    rw [cellsLen] at hcl
    omega
  have hufi_notmem : st.ugfaces.length ∉ cellAt st (nc0 + k) := by
    intro hxin
    obtain ⟨i, hi, hgd⟩ := mem_getD_own _ _ 0 hxin
    rw [hinv.cur_len] at hi
    obtain ⟨jr, hqr, hent⟩ := hinv.cur_ent i hi
    rw [hent] at hgd
    have hjr : jr < jnew := by
      have := hqr.1
      omega
    omega
  have hcellk : cellAt st2 (nc0 + k) =
      cellAt st (nc0 + k) ++ [st.ugfaces.length] := by
    rw [cellAt_def, cellAt_def, hcells2]
    exact add_face_info_self st.ugcells (nc0 + k) st.ugfaces.length hnc_lt
      (by rw [← cellAt_def]; exact hufi_notmem)
  refine ⟨⟨?_, ?_, ?_, ?_, ?_, ?_, ?_, ?_, ?_, ?_, ?_, ?_, ?_, ?_⟩, ?_, ?_, ?_, ?_, ?_⟩
  · -- bm_le
    rw [hlen2]
    omega
  · -- ug_len
    rw [huglen2, hlen2, hcore.ug_len]
    omega
  · -- old_bi
    intro u hu
    rw [hExt.ug_bi u (by omega)]
    exact hcore.old_bi u hu
  · -- lockstep_bi
    intro j hj
    rw [hlen2] at hj
    by_cases hje : j = jnew
    · subst hje
      rw [hugAtNew]
      show st.bm.length = nf0 + jnew
      omega
    · have hjlt : j < jnew := by omega
      rw [hExt.ug_bi (nu0 + j) (by omega)]
      exact hcore.lockstep_bi j (by omega)
  · -- lockstep_verts
    intro j hj
    rw [hlen2] at hj
    by_cases hje : j = jnew
    · subst hje
      rw [hugAtNew, hvnew]
    · have hjlt : j < jnew := by omega
      rw [hExt.ug_verts (nu0 + j) (by omega), hExt.bm_verts (nf0 + j) (by omega)]
      exact hcore.lockstep_verts j (by omega)
  · -- proc_eq
    rw [hproc2, hproc]
    exact hpe2.symm
  · -- proc_nodup
    rw [hpe2]
    exact nodup_concat_own _ e hcore.proc_nodup hfresh2
  · -- proc_valid
    intro e3 he3
    rcases hmemsplit e3 he3 with h | h
    · exact hcore.proc_valid e3 h
    · rw [h]
      exact hvalid_e
  · -- classify
    intro j hj
    rw [hlen2] at hj
    by_cases hje : j = jnew
    · subst hje
      exact Or.inl ⟨e, by rw [hpe2]; simp, hqnew⟩
    · have hjlt : j < jnew := by omega
      rcases hcore.classify j (by omega) with ⟨e4, he4, hq4⟩ | ⟨g, hg, htop⟩
      · exact Or.inl ⟨e4, by rw [hpe2]; exact List.mem_append.mpr (Or.inl he4),
          hup e4 j hq4⟩
      · refine Or.inr ⟨g, hg, ?_⟩
        rw [hExt.bm_verts (nf0 + j) (by omega)]
        exact htop
  · -- rec_ex
    intro e3 he3
    rcases hmemsplit e3 he3 with h | h
    · obtain ⟨j, hj⟩ := hcore.rec_ex e3 h
      exact ⟨j, hup e3 j hj⟩
    · exact ⟨jnew, by rw [h]; exact hqnew⟩
  · -- rec_uniq
    intro e3 he3 j j2 hq hq2
    rcases hcharac e3 j (hmemsplit e3 he3) hq with ⟨hm1, hj1, hqo1⟩ | ⟨he1, hj1⟩ <;>
      rcases hcharac e3 j2 (hmemsplit e3 he3) hq2 with ⟨hm2, hj2, hqo2⟩ | ⟨he2, hj2⟩
    · exact hcore.rec_uniq e3 hm1 j j2 hqo1 hqo2
    · rw [he2] at hm1
      exact absurd hm1 hfresh2
    · rw [he1] at hm2
      exact absurd hm2 hfresh2
    · rw [hj1, hj2]
  · -- rec_wind
    intro e3 he3 j hq
    rcases hcharac e3 j (hmemsplit e3 he3) hq with ⟨hm1, hj1, hqo1⟩ | ⟨he1, hj1⟩
    · rw [hExt.bm_verts (nf0 + j) (by omega)]
      exact hcore.rec_wind e3 hm1 j hqo1
    · rw [he1, hj1, hvnew]
      unfold expectedWinding freshFaceVerts
      rw [hffi, ← hf]
  · -- rec_owner
    intro e3 he3 j hq
    rcases hcharac e3 j (hmemsplit e3 he3) hq with ⟨hm1, hj1, hqo1⟩ | ⟨he1, hj1⟩
    · rw [hExt.ug_owner (nu0 + j) (by omega)]
      exact hcore.rec_owner e3 hm1 j hqo1
    · rw [he1, hj1, hugAtNew, hffi]
  · -- rec_nb
    intro e3 he3 j hq
    rcases hcharac e3 j (hmemsplit e3 he3) hq with ⟨hm1, hj1, hqo1⟩ | ⟨he1, hj1⟩
    · have hne3 : e3 ≠ e := by
        intro hx
        rw [hx] at hm1
        exact hfresh2 hm1
      rw [hrecsame (nu0 + j) (by omega), hcore.rec_nb e3 hm1 j hqo1]
      exact (nbCur_step_ne F nc0 k m e3 (by rw [← hf]; exact hm)
        (by rw [← hf, ← he]; exact hne3)).symm
    · rw [he1, hj1, hugAtNew]
      exact (nbCur_no_occ F nc0 k (m + 1) e hocc0).symm
  · -- clen
    show st2.ugcells.length = nc0 + F.length
    rw [hcells2, length_add_face_info]
    exact hinv.clen
  · -- done
    intro j hj
    refine DoneCell_ext c F st0 j st st2 (hinv.done j hj) hExt hnu_le ?_
    rw [cellAt_def, cellAt_def, hcells2]
    exact add_face_info_other st.ugcells (nc0 + k) st.ugfaces.length (nc0 + j)
      (by omega)
  · -- todo
    intro j hjk hjF
    rw [cellAt_def, hcells2,
      add_face_info_other st.ugcells (nc0 + k) st.ugfaces.length (nc0 + j)
        (by omega)]
    rw [← cellAt_def]
    exact hinv.todo j hjk hjF
  · -- cur_len
    rw [hcellk]
    simp [hinv.cur_len]
  · -- cur_ent
    intro i hi
    by_cases hie : i = m
    · subst hie
      refine ⟨jnew, by rw [← he]; exact hqnew, ?_⟩
      rw [hcellk, hug_eq.symm]
      have hil : i = (cellAt st (nc0 + k)).length := by rw [hinv.cur_len]
      rw [hil, getD_append_self]
    · have hilt : i < m := by omega
      obtain ⟨jr, hqr, hent⟩ := hinv.cur_ent i hilt
      refine ⟨jr, hup _ jr hqr, ?_⟩
      rw [hcellk, getD_append_lt _ _ _ _ (by rw [hinv.cur_len]; omega)]
      exact hent


theorem point_neighbour_eq (c : Ctx) (e : Nat × Nat) (nc nf0 : Nat)
    (st : LayerState) (fi oi : Nat)
    (hscan : scanFrom st.bm nf0 (quadList c.vm e) = some fi)
    (hfind : get_ugface_from_face_index st.ugfaces fi = some oi) :
    point_neighbour_cell_to_internal_face c e nc nf0 st =
      PN.ok { st with
        ugfaces := st.ugfaces.set oi
          { st.ugfaces.getD oi dummyUGFace with neighbour := some nc },
        ugcells := add_face_info st.ugcells nc oi } := by
  unfold point_neighbour_cell_to_internal_face
  simp only [hscan, hfind]

theorem processEdge_found_inv (c : Ctx) (F : List FrontFace) (st0 : LayerState)
    (hwf : WF c F st0) (k m : Nat) (st : LayerState)
    (hk : k < F.length) (hm : m < (F.getD k dFront).edges.length)
    (hinv : InnerInv c F st0 k m st)
    (hfound : (F.getD k dFront).edges.getD m dEdge ∈ st.processed) :
    ∃ st2, processEdge c (F.getD k dFront) (st0.ugcells.length + k)
        st0.bm.length st ((F.getD k dFront).edges.getD m dEdge) = CF.ok st2 ∧
      InnerInv c F st0 k (m + 1) st2 := by
  set f := F.getD k dFront with hf
  set e := f.edges.getD m dEdge with he
  set nf0 := st0.bm.length with hnf0
  set nu0 := st0.ugfaces.length with hnu0
  set nc0 := st0.ugcells.length with hnc0
  have hcore := hinv.core
  have hnu_le : nu0 ≤ st.ugfaces.length := by
    have h := hcore.ug_len
    omega
  have hfmem : f ∈ F := by
    rw [hf]
    exact getD_mem_own F k dFront hk
  have hemem : e ∈ f.edges := by
    rw [he]
    exact getD_mem_own f.edges m dEdge hm
  have hvalid_e : validEdge F e := ⟨f, hfmem, hemem⟩
  have hpe : e ∈ addEdges (firstOccs (F.take k)) (f.edges.take m) := by
    rw [← hcore.proc_eq]
    exact hfound
  obtain ⟨jrec, hq⟩ := hcore.rec_ex e hpe
  have hjlt : jrec < st.bm.length - nf0 := by
    have := hq.1
    omega
  have hscan := scan_finds c F st0 _ _ st hwf hcore e hpe jrec hq
  have hfind := lookup_record c F st0 _ _ st hwf hcore jrec hjlt
  have hedup : f.edges.Nodup := hwf.edges_nodup f hfmem
  have hnottake : e ∉ f.edges.take m := by
    rw [he]
    exact nodup_getD_not_mem_take f.edges m dEdge hedup hm
  have hfo : e ∈ firstOccs (F.take k) := by
    rcases (mem_addEdges _ _ _).mp hpe with h | h
    · exact h
    · exact absurd h hnottake
  have hocc : 0 < occCount (F.take k) e := occ_pos_of_firstOccs _ _ hfo
  have hreclt : nu0 + jrec < st.ugfaces.length := by
    have h := hcore.ug_len
    omega
  set st2 : LayerState := { st with
      ugfaces := st.ugfaces.set (nu0 + jrec)
        { st.ugfaces.getD (nu0 + jrec) dummyUGFace with
          neighbour := some (nc0 + k) },
      ugcells := add_face_info st.ugcells (nc0 + k) (nu0 + jrec) } with hst2
  have hrun : processEdge c f (nc0 + k) nf0 st e = CF.ok st2 := by
    unfold processEdge
    rw [if_pos hfound,
      point_neighbour_eq c e (nc0 + k) nf0 st (nf0 + jrec) (nu0 + jrec)
        hscan hfind]
  have hbm2 : st2.bm = st.bm := rfl
  have hug2 : st2.ugfaces = st.ugfaces.set (nu0 + jrec)
      { st.ugfaces.getD (nu0 + jrec) dummyUGFace with
        neighbour := some (nc0 + k) } := rfl
  have hproc2 : st2.processed = st.processed := rfl
  have hcells2 : st2.ugcells = add_face_info st.ugcells (nc0 + k)
      (nu0 + jrec) := rfl
  have hExt : Ext st st2 := ext_of_set_neighbour st st2 (nu0 + jrec)
    (some (nc0 + k)) hbm2 hug2
  have huglen2 : st2.ugfaces.length = st.ugfaces.length := by
    rw [hug2, List.length_set]
  have hugAtRec : ugAt st2 (nu0 + jrec) =
      { st.ugfaces.getD (nu0 + jrec) dummyUGFace with
        neighbour := some (nc0 + k) } := by
    rw [ugAt_def, hug2, getD_set_eq _ _ _ _ hreclt]
  have hrecsame : ∀ u, u ≠ nu0 + jrec → ugAt st2 u = ugAt st u := by
    intro u hu
    rw [ugAt_def, ugAt_def, hug2, getD_set_ne _ _ _ _ _ (fun hx => hu hx.symm)]
  have hsameidx : ∀ e3, e3 ∈ addEdges (firstOccs (F.take k)) (f.edges.take m) →
      ∀ j, isQuadOf c nf0 st.bm e3 j → j = jrec → e3 = e := by
    intro e3 he3 j hq3 hj
    subst hj
    exact quad_eq_of_same_idx c F st0 hwf nf0 st.bm e3 e
      (hcore.proc_valid e3 he3) hvalid_e j hq3 hq
  have hpe2 : addEdges (firstOccs (F.take k)) (f.edges.take (m + 1)) =
      addEdges (firstOccs (F.take k)) (f.edges.take m) := by
    rw [take_succ_getD f.edges m dEdge hm, ← he, addEdges_append_single]
    unfold addEdge
    rw [if_pos hpe]
  have hnc_lt : nc0 + k < st.ugcells.length := by
    have hcl := hinv.clen
    rw [cellsLen] at hcl
    omega
  have hnotmem : nu0 + jrec ∉ cellAt st (nc0 + k) := by
    intro hxin
    obtain ⟨i, hi, hgd⟩ := mem_getD_own _ _ 0 hxin
    rw [hinv.cur_len] at hi
    obtain ⟨jr, hqr, hent⟩ := hinv.cur_ent i hi
    rw [hent] at hgd
    have hjr : jr = jrec := by omega
    have htklen : i < (f.edges.take m).length := by
      rw [List.length_take]
      omega
    have hmemi : f.edges.getD i dEdge ∈ f.edges.take m := by
      have hx := getD_mem_own (f.edges.take m) i dEdge htklen
      rw [getD_take_lt _ _ _ _ hi] at hx
      exact hx
    have hpe_i : f.edges.getD i dEdge ∈
        addEdges (firstOccs (F.take k)) (f.edges.take m) :=
      (mem_addEdges _ _ _).mpr (Or.inr hmemi)
    have hei : f.edges.getD i dEdge = e :=
      hsameidx (f.edges.getD i dEdge) hpe_i jr hqr hjr
    rw [hei] at hmemi
    exact hnottake hmemi
  have hcellk2 : cellAt st2 (nc0 + k) =
      cellAt st (nc0 + k) ++ [nu0 + jrec] := by
    rw [cellAt_def, cellAt_def, hcells2]
    exact add_face_info_self st.ugcells (nc0 + k) (nu0 + jrec) hnc_lt
      (by rw [← cellAt_def]; exact hnotmem)
  refine ⟨st2, hrun, ⟨?_, ?_, ?_, ?_, ?_, ?_, ?_, ?_, ?_, ?_, ?_, ?_, ?_, ?_⟩,
    ?_, ?_, ?_, ?_, ?_⟩
  · -- bm_le
    rw [hbm2]
    exact hcore.bm_le
  · -- ug_len
    rw [huglen2, hbm2]
    exact hcore.ug_len
  · -- old_bi
    intro u hu
    rw [hExt.ug_bi u (by omega)]
    exact hcore.old_bi u hu
  · -- lockstep_bi
    intro j hj
    rw [hbm2] at hj
    by_cases hje : j = jrec
    · subst hje
      rw [hugAtRec]
      have h2 := hcore.lockstep_bi j hj
      rw [ugAt_def] at h2
      exact h2
    · rw [hExt.ug_bi (nu0 + j) (by have h := hcore.ug_len; omega)]
      exact hcore.lockstep_bi j hj
  · -- lockstep_verts
    intro j hj
    rw [hbm2] at hj
    by_cases hje : j = jrec
    · subst hje
      rw [hugAtRec]
      have h2 := hcore.lockstep_verts j hj
      rw [ugAt_def] at h2
      rw [hbm2]
      exact h2
    · rw [hExt.ug_verts (nu0 + j) (by have h := hcore.ug_len; omega), hbm2]
      exact hcore.lockstep_verts j hj
  · -- proc_eq
    rw [hproc2, hcore.proc_eq]
    exact hpe2.symm
  · -- proc_nodup
    rw [hpe2]
    exact hcore.proc_nodup
  · -- proc_valid
    intro e3 he3
    rw [hpe2] at he3
    exact hcore.proc_valid e3 he3
  · -- classify
    intro j hj
    rw [hbm2] at hj ⊢
    rcases hcore.classify j hj with ⟨e4, he4, hq4⟩ | ⟨g, hg, htop⟩
    · exact Or.inl ⟨e4, by rw [hpe2]; exact he4, hq4⟩
    · exact Or.inr ⟨g, hg, htop⟩
  · -- rec_ex
    intro e3 he3
    rw [hpe2] at he3
    rw [hbm2]
    exact hcore.rec_ex e3 he3
  · -- rec_uniq
    intro e3 he3 j j2 hq1 hq2
    rw [hpe2] at he3
    rw [hbm2] at hq1 hq2
    exact hcore.rec_uniq e3 he3 j j2 hq1 hq2
  · -- rec_wind
    intro e3 he3 j hq1
    rw [hpe2] at he3
    rw [hbm2] at hq1 ⊢
    exact hcore.rec_wind e3 he3 j hq1
  · -- rec_owner
    intro e3 he3 j hq1
    rw [hpe2] at he3
    rw [hbm2] at hq1
    by_cases hje : j = jrec
    · subst hje
      rw [hugAtRec]
      have h2 := hcore.rec_owner e3 he3 j hq1
      rw [ugAt_def] at h2
      exact h2
    · rw [hrecsame (nu0 + j) (by intro hx; exact hje (by omega))]
      exact hcore.rec_owner e3 he3 j hq1
  · -- rec_nb
    intro e3 he3 j hq1
    rw [hpe2] at he3
    rw [hbm2] at hq1
    by_cases hje : j = jrec
    · have he3e : e3 = e := hsameidx e3 he3 j hq1 hje
      subst hje
      rw [hugAtRec, he3e]
      exact (by
        have := nbCur_found F nc0 k m (by rw [← hf]; exact hm)
          (by rw [← hf, ← he]; exact hocc)
        rw [← hf, ← he] at this
        exact this.symm)
    · have hne3 : e3 ≠ e := by
        intro hx
        apply hje
        exact hcore.rec_uniq e3 he3 j jrec hq1 (by rw [hx]; exact hq)
      rw [hrecsame (nu0 + j) (by intro hx; exact hje (by omega))]
      rw [hcore.rec_nb e3 he3 j hq1]
      exact (nbCur_step_ne F nc0 k m e3 (by rw [← hf]; exact hm)
        (by rw [← hf, ← he]; exact hne3)).symm
  · -- clen
    show st2.ugcells.length = nc0 + F.length
    rw [hcells2, length_add_face_info]
    exact hinv.clen
  · -- done
    intro j hj
    refine DoneCell_ext c F st0 j st st2 (hinv.done j hj) hExt hnu_le ?_
    rw [cellAt_def, cellAt_def, hcells2]
    exact add_face_info_other st.ugcells (nc0 + k) (nu0 + jrec) (nc0 + j)
      (by omega)
  · -- todo
    intro j hjk hjF
    rw [cellAt_def, hcells2,
      add_face_info_other st.ugcells (nc0 + k) (nu0 + jrec) (nc0 + j)
        (by omega)]
    rw [← cellAt_def]
    exact hinv.todo j hjk hjF
  · -- cur_len
    rw [hcellk2]
    simp [hinv.cur_len]
  · -- cur_ent
    intro i hi
    by_cases hie : i = m
    · subst hie
      refine ⟨jrec, by rw [← he, hbm2]; exact hq, ?_⟩
      rw [hcellk2]
      have hil : i = (cellAt st (nc0 + k)).length := by rw [hinv.cur_len]
      rw [hil, getD_append_self]
    · have hilt : i < m := by omega
      obtain ⟨jr, hqr, hent⟩ := hinv.cur_ent i hilt
      refine ⟨jr, by rw [hbm2]; exact hqr, ?_⟩
      rw [hcellk2, getD_append_lt _ _ _ _ (by rw [hinv.cur_len]; omega)]
      exact hent

end UGX

namespace UGX

theorem drop_eq_getD_cons {α : Type} (l : List α) (m : Nat) (d : α)
    (h : m < l.length) : l.drop m = l.getD m d :: l.drop (m + 1) := by
  induction l generalizing m with
  | nil => simp at h
  | cons a t ih =>
    cases m with
    | zero => simp
    | succ m2 => simpa using ih m2 (by simpa using h)

/-- Running the edge loop from any prefix point preserves the inner invariant
and reaches the end of the edge list. -/
theorem processEdges_inv (c : Ctx) (F : List FrontFace) (st0 : LayerState)
    (hwf : WF c F st0) (k : Nat) (hk : k < F.length) :
    ∀ (n m : Nat) (st : LayerState), n = (F.getD k dFront).edges.length - m →
      m ≤ (F.getD k dFront).edges.length →
      InnerInv c F st0 k m st →
      ∃ st2, processEdges c (F.getD k dFront) (st0.ugcells.length + k)
          st0.bm.length ((F.getD k dFront).edges.drop m) st = CF.ok st2 ∧
        InnerInv c F st0 k ((F.getD k dFront).edges.length) st2 := by
  intro n
  induction n with
  | zero =>
    intro m st hn hm hinv
    have hme : m = (F.getD k dFront).edges.length := by omega
    rw [hme] at hinv
    rw [hme, List.drop_length]
    exact ⟨st, rfl, hinv⟩
  | succ n2 ih =>
    intro m st hn hm hinv
    have hmlt : m < (F.getD k dFront).edges.length := by omega
    rw [drop_eq_getD_cons _ m dEdge hmlt]
    by_cases hin : (F.getD k dFront).edges.getD m dEdge ∈ st.processed
    · obtain ⟨st2, hrun, hinv2⟩ :=
        processEdge_found_inv c F st0 hwf k m st hk hmlt hinv hin
      obtain ⟨st3, hrun3, hinv3⟩ := ih (m + 1) st2 (by omega) (by omega) hinv2
      refine ⟨st3, ?_, hinv3⟩
      simp only [processEdges]
      rw [hrun]
      exact hrun3
    · have hrun := processEdge_fresh_eq c (F.getD k dFront)
        (st0.ugcells.length + k) st0.bm.length st
        ((F.getD k dFront).edges.getD m dEdge) hin
      have hinv2 := processEdge_fresh_inv c F st0 hwf k m st hk hmlt hinv hin
      obtain ⟨st3, hrun3, hinv3⟩ := ih (m + 1) _ (by omega) (by omega) hinv2
      refine ⟨st3, ?_, hinv3⟩
      simp only [processEdges]
      rw [hrun]
      exact hrun3

/-- `Core` is unaffected by setting the neighbour of a pre-existing grid face
(the base-face update of step 2). -/
theorem core_set_base (c : Ctx) (F : List FrontFace) (st0 : LayerState)
    (pe : List (Nat × Nat)) (nbS : (Nat × Nat) → Option Nat)
    (st st2 : LayerState) (hc : Core c F st0 pe nbS st) (oi : Nat)
    (hoi : oi < st0.ugfaces.length) (nb : Option Nat)
    (hbm : st2.bm = st.bm) (hproc : st2.processed = st.processed)
    (hug : st2.ugfaces = st.ugfaces.set oi
      { st.ugfaces.getD oi dummyUGFace with neighbour := nb }) :
    Core c F st0 pe nbS st2 := by
  have hlen2 : st2.ugfaces.length = st.ugfaces.length := by
    rw [hug, List.length_set]
  have hnu_le : st0.ugfaces.length ≤ st.ugfaces.length := by
    have h := hc.ug_len
    omega
  have hsame : ∀ u, u ≠ oi → ugAt st2 u = ugAt st u := by
    intro u hu
    rw [ugAt_def, ugAt_def, hug, getD_set_ne _ _ _ _ _ (fun hx => hu hx.symm)]
  have hoiAt : ugAt st2 oi =
      { st.ugfaces.getD oi dummyUGFace with neighbour := nb } := by
    rw [ugAt_def, hug, getD_set_eq _ _ _ _ (by omega)]
  refine ⟨by rw [hbm]; exact hc.bm_le, by rw [hlen2, hbm]; exact hc.ug_len,
    ?_, ?_, ?_, by rw [hproc]; exact hc.proc_eq, hc.proc_nodup, hc.proc_valid,
    ?_, ?_, ?_, ?_, ?_, ?_⟩
  · intro u hu
    by_cases he : u = oi
    · subst he
      rw [hoiAt]
      exact hc.old_bi u hu
    · rw [hsame u he]
      exact hc.old_bi u hu
  · intro j hj
    rw [hbm] at hj
    rw [hsame (st0.ugfaces.length + j) (by omega)]
    exact hc.lockstep_bi j hj
  · intro j hj
    rw [hbm] at hj
    rw [hsame (st0.ugfaces.length + j) (by omega), hbm]
    exact hc.lockstep_verts j hj
  · intro j hj
    rw [hbm] at hj ⊢
    rcases hc.classify j hj with ⟨e4, he4, hq4⟩ | ⟨g, hg, htop⟩
    · exact Or.inl ⟨e4, he4, hq4⟩
    · exact Or.inr ⟨g, hg, htop⟩
  · intro e3 he3
    rw [hbm]
    exact hc.rec_ex e3 he3
  · intro e3 he3 j j2 hq1 hq2
    rw [hbm] at hq1 hq2
    exact hc.rec_uniq e3 he3 j j2 hq1 hq2
  · intro e3 he3 j hq1
    rw [hbm] at hq1 ⊢
    exact hc.rec_wind e3 he3 j hq1
  · intro e3 he3 j hq1
    rw [hbm] at hq1
    rw [hsame (st0.ugfaces.length + j) (by omega)]
    exact hc.rec_owner e3 he3 j hq1
  · intro e3 he3 j hq1
    rw [hbm] at hq1
    rw [hsame (st0.ugfaces.length + j) (by omega)]
    exact hc.rec_nb e3 he3 j hq1

/-- `Core` is preserved by appending a top cap face and its grid face
(step 3): the new mesh face classifies as a top face and cannot be a side
record of any processed edge. -/
theorem core_append_top (c : Ctx) (F : List FrontFace) (st0 : LayerState)
    (hwf : WF c F st0) (pe : List (Nat × Nat))
    (nbS : (Nat × Nat) → Option Nat) (st st2 : LayerState)
    (hc : Core c F st0 pe nbS st) (g : FrontFace) (hg : g ∈ F)
    (ow nbv : Option Nat)
    (hbm : st2.bm = st.bm ++ [{ verts := g.verts.map c.vm, select := false }])
    (hproc : st2.processed = st.processed)
    (hug : st2.ugfaces = st.ugfaces ++ [{ verts := g.verts.map c.vm,
                                          owner := ow, neighbour := nbv,
                                          deleted := false,
                                          bi := st.bm.length }]) :
    Core c F st0 pe nbS st2 := by
  have hExt : Ext st st2 := ext_of_append st st2 _ _ hbm hug
  have hlen2 : st2.bm.length = st.bm.length + 1 := by
    rw [hbm]
    simp
  have huglen2 : st2.ugfaces.length = st.ugfaces.length + 1 := by
    rw [hug]
    simp
  have hbmle : st0.bm.length ≤ st.bm.length := hc.bm_le
  have hug_eq : st0.ugfaces.length + (st.bm.length - st0.bm.length) =
      st.ugfaces.length := by
    have h := hc.ug_len
    omega
  have hrecsame : ∀ u, u < st.ugfaces.length → ugAt st2 u = ugAt st u := by
    intro u hu
    rw [ugAt_def, ugAt_def, hug, getD_append_lt _ _ _ _ hu]
  have hvnew : bmVL st2.bm (st0.bm.length + (st.bm.length - st0.bm.length)) =
      g.verts.map c.vm := by
    have hidx : st0.bm.length + (st.bm.length - st0.bm.length) =
        st.bm.length := by omega
    rw [hidx, hbm, bmVL_def, getD_append_self]
  have hugAtNew : ugAt st2 (st0.ugfaces.length +
      (st.bm.length - st0.bm.length)) =
      { verts := g.verts.map c.vm, owner := ow, neighbour := nbv,
        deleted := false, bi := st.bm.length } := by
    rw [ugAt_def, hug, hug_eq, getD_append_self]
  have hdown : ∀ e3 j, e3 ∈ pe → isQuadOf c st0.bm.length st2.bm e3 j →
      j < st.bm.length - st0.bm.length ∧ isQuadOf c st0.bm.length st.bm e3 j := by
    intro e3 j he3 hq
    have hjle : j ≤ st.bm.length - st0.bm.length := by
      have := hq.1
      omega
    by_cases hje : j = st.bm.length - st0.bm.length
    · exfalso
      subst hje
      exact quad_ne_top c F st0 hwf st0.bm.length st2.bm e3
        (hc.proc_valid e3 he3) g hg _ hq hvnew
    · have hjlt : j < st.bm.length - st0.bm.length := by omega
      refine ⟨hjlt, ⟨by omega, ?_⟩⟩
      rw [← hExt.bm_verts (st0.bm.length + j) (by omega)]
      exact hq.2
  refine ⟨by rw [hlen2]; omega, by rw [huglen2, hlen2, hc.ug_len]; omega,
    ?_, ?_, ?_, by rw [hproc]; exact hc.proc_eq, hc.proc_nodup, hc.proc_valid,
    ?_, ?_, ?_, ?_, ?_, ?_⟩
  · intro u hu
    rw [hExt.ug_bi u (by omega)]
    exact hc.old_bi u hu
  · intro j hj
    rw [hlen2] at hj
    by_cases hje : j = st.bm.length - st0.bm.length
    · subst hje
      rw [hugAtNew]
      show st.bm.length = st0.bm.length + (st.bm.length - st0.bm.length)
      omega
    · have hjlt : j < st.bm.length - st0.bm.length := by omega
      rw [hExt.ug_bi (st0.ugfaces.length + j) (by omega)]
      exact hc.lockstep_bi j (by omega)
  · intro j hj
    rw [hlen2] at hj
    by_cases hje : j = st.bm.length - st0.bm.length
    · subst hje
      rw [hugAtNew, hvnew]
    · have hjlt : j < st.bm.length - st0.bm.length := by omega
      rw [hExt.ug_verts (st0.ugfaces.length + j) (by omega),
        hExt.bm_verts (st0.bm.length + j) (by omega)]
      exact hc.lockstep_verts j (by omega)
  · intro j hj
    rw [hlen2] at hj
    by_cases hje : j = st.bm.length - st0.bm.length
    · subst hje
      exact Or.inr ⟨g, hg, hvnew⟩
    · have hjlt : j < st.bm.length - st0.bm.length := by omega
      rcases hc.classify j (by omega) with ⟨e4, he4, hq4⟩ | ⟨g2, hg2, htop⟩
      · exact Or.inl ⟨e4, he4, isQuadOf_ext c st0.bm.length st st2 hExt e4 j hq4⟩
      · refine Or.inr ⟨g2, hg2, ?_⟩
        rw [hExt.bm_verts (st0.bm.length + j) (by omega)]
        exact htop
  · intro e3 he3
    obtain ⟨j, hj⟩ := hc.rec_ex e3 he3
    exact ⟨j, isQuadOf_ext c st0.bm.length st st2 hExt e3 j hj⟩
  · intro e3 he3 j j2 hq1 hq2
    obtain ⟨hlt1, hqo1⟩ := hdown e3 j he3 hq1
    obtain ⟨hlt2, hqo2⟩ := hdown e3 j2 he3 hq2
    exact hc.rec_uniq e3 he3 j j2 hqo1 hqo2
  · intro e3 he3 j hq1
    obtain ⟨hlt1, hqo1⟩ := hdown e3 j he3 hq1
    rw [hExt.bm_verts (st0.bm.length + j) (by omega)]
    exact hc.rec_wind e3 he3 j hqo1
  · intro e3 he3 j hq1
    obtain ⟨hlt1, hqo1⟩ := hdown e3 j he3 hq1
    rw [hExt.ug_owner (st0.ugfaces.length + j) (by omega)]
    exact hc.rec_owner e3 he3 j hqo1
  · intro e3 he3 j hq1
    obtain ⟨hlt1, hqo1⟩ := hdown e3 j he3 hq1
    rw [hrecsame (st0.ugfaces.length + j) (by omega)]
    exact hc.rec_nb e3 he3 j hqo1

/-- `Core` is unaffected by selection-flag updates (step 4). -/
theorem core_setSelect (c : Ctx) (F : List FrontFace) (st0 : LayerState)
    (pe : List (Nat × Nat)) (nbS : (Nat × Nat) → Option Nat)
    (st st2 : LayerState) (hc : Core c F st0 pe nbS st) (i0 : Nat) (b : Bool)
    (hbm : st2.bm = setSelect st.bm i0 b) (hproc : st2.processed = st.processed)
    (hug : st2.ugfaces = st.ugfaces) : Core c F st0 pe nbS st2 := by
  have hlen : st2.bm.length = st.bm.length := by
    rw [hbm, length_setSelect]
  have hverts : ∀ i, bmVL st2.bm i = bmVL st.bm i := by
    intro i
    rw [hbm, bmVL_setSelect]
  have hqiff : ∀ e3 j, isQuadOf c st0.bm.length st2.bm e3 j ↔
      isQuadOf c st0.bm.length st.bm e3 j := by
    intro e3 j
    unfold isQuadOf
    rw [hlen, hverts]
  have hugAt : ∀ u, ugAt st2 u = ugAt st u := by
    intro u
    rw [ugAt_def, ugAt_def, hug]
  refine ⟨by rw [hlen]; exact hc.bm_le, by rw [hug, hlen]; exact hc.ug_len,
    ?_, ?_, ?_, by rw [hproc]; exact hc.proc_eq, hc.proc_nodup, hc.proc_valid,
    ?_, ?_, ?_, ?_, ?_, ?_⟩
  · intro u hu
    rw [hugAt]
    exact hc.old_bi u hu
  · intro j hj
    rw [hlen] at hj
    rw [hugAt]
    exact hc.lockstep_bi j hj
  · intro j hj
    rw [hlen] at hj
    rw [hugAt, hverts]
    exact hc.lockstep_verts j hj
  · intro j hj
    rw [hlen] at hj
    rcases hc.classify j hj with ⟨e4, he4, hq4⟩ | ⟨g, hg, htop⟩
    · exact Or.inl ⟨e4, he4, (hqiff e4 j).mpr hq4⟩
    · refine Or.inr ⟨g, hg, ?_⟩
      rw [hverts]
      exact htop
  · intro e3 he3
    obtain ⟨j, hj⟩ := hc.rec_ex e3 he3
    exact ⟨j, (hqiff e3 j).mpr hj⟩
  · intro e3 he3 j j2 hq1 hq2
    exact hc.rec_uniq e3 he3 j j2 ((hqiff e3 j).mp hq1) ((hqiff e3 j2).mp hq2)
  · intro e3 he3 j hq1
    rw [hverts]
    exact hc.rec_wind e3 he3 j ((hqiff e3 j).mp hq1)
  · intro e3 he3 j hq1
    rw [hugAt]
    exact hc.rec_owner e3 he3 j ((hqiff e3 j).mp hq1)
  · intro e3 he3 j hq1
    rw [hugAt]
    exact hc.rec_nb e3 he3 j ((hqiff e3 j).mp hq1)

end UGX

namespace UGX

theorem processFace_inv (c : Ctx) (F : List FrontFace) (st0 : LayerState)
    (hwf : WF c F st0) (k : Nat) (st : LayerState)
    (hk : k < F.length) (hinv : OuterInv c F st0 k st) :
    ∃ st2, processFace c (st0.ugcells.length + k) st0.bm.length st
        (F.getD k dFront) = CF.ok st2 ∧ OuterInv c F st0 (k + 1) st2 := by
  set f := F.getD k dFront with hf
  set nf0 := st0.bm.length with hnf0
  set nu0 := st0.ugfaces.length with hnu0
  set nc0 := st0.ugcells.length with hnc0
  have hfmem : f ∈ F := by
    rw [hf]
    exact getD_mem_own F k dFront hk
  have hinner0 : InnerInv c F st0 k 0 st := by
    refine ⟨?_, hinv.clen, hinv.done, ?_, ?_, ?_⟩
    · refine core_congr_nbS c F st0 _ _ _ st hinv.core ?_
      intro e he
      exact (nbCur_zero F nc0 k e).symm
    · intro j hjk hjF
      exact hinv.todo j (by omega) hjF
    · rw [hinv.todo k (le_refl k) hk]
      rfl
    · intro i hi
      exact absurd hi (by omega)
  obtain ⟨st1, hrunE, hinner⟩ := processEdges_inv c F st0 hwf k hk
    f.edges.length 0 st (by rw [← hf]; omega) (by rw [← hf]; omega) hinner0
  have hrunE2 : processEdges c f (nc0 + k) nf0 f.edges st = CF.ok st1 := hrunE
  have hcore1 := hinner.core
  have hnu_le1 : nu0 ≤ st1.ugfaces.length := by
    have h := hcore1.ug_len
    omega
  have hpeEq : addEdges (firstOccs (F.take k)) (f.edges.take f.edges.length) =
      firstOccs (F.take (k + 1)) := by
    rw [List.take_length, firstOccs_take_succ F k hk, ← hf]
  have hcore1b : Core c F st0 (firstOccs (F.take (k + 1)))
      (nbExp nc0 (F.take (k + 1))) st1 := by
    have h2 := core_congr_nbS c F st0 _ _ (nbExp nc0 (F.take (k + 1))) st1
      hcore1 (fun e _ => by
        have h := nbCur_end F nc0 k hk e
        rw [← hf] at h
        exact h)
    rw [hpeEq] at h2
    exact h2
  obtain ⟨oi, hfindB, hoiLt, hoiBi⟩ :=
    lookup_base c F st0 _ _ st1 hwf hcore1b f hfmem
  set st2 : LayerState := { st1 with
      ugfaces := st1.ugfaces.set oi
        { st1.ugfaces.getD oi dummyUGFace with neighbour := some (nc0 + k) },
      ugcells := add_face_info st1.ugcells (nc0 + k) oi } with hst2
  set tfi := st2.ugfaces.length with htfi
  set topBF : BFace := { verts := f.verts.map c.vm, select := false } with htopBF
  set st3 : LayerState := { st2 with
      bm := st2.bm ++ [topBF],
      ugfaces := st2.ugfaces ++ [{ verts := f.verts.map c.vm, owner := some (nc0 + k), neighbour := none, deleted := false, bi := (st2.bm ++ [topBF]).length - 1 }],
      newfaces := st2.newfaces ++ [tfi],
      ugcells := add_face_info st2.ugcells (nc0 + k) tfi } with hst3
  set st4 : LayerState := { st3 with
      bm := setSelect (setSelect st3.bm f.fi false) (st3.bm.length - 1) true }
    with hst4
  have hrun : processFace c (nc0 + k) nf0 st f = CF.ok st4 := by
    unfold processFace
    rw [hrunE2]
    simp only
    rw [hfindB]
  have h12len : st2.ugfaces.length = st1.ugfaces.length := by
    show (st1.ugfaces.set oi _).length = st1.ugfaces.length
    rw [List.length_set]
  have hbi3 : (st2.bm ++ [topBF]).length - 1 = st2.bm.length := by
    simp
  have hug3 : st3.ugfaces = st2.ugfaces ++ [{ verts := f.verts.map c.vm, owner := some (nc0 + k), neighbour := none, deleted := false, bi := st2.bm.length }] := by
    show st2.ugfaces ++ _ = st2.ugfaces ++ _
    rw [hbi3]
  have h23len : st3.ugfaces.length = st2.ugfaces.length + 1 := by
    rw [hug3]
    simp
  set st3b : LayerState := { st3 with bm := setSelect st3.bm f.fi false }
    with hst3b
  have hcore2 : Core c F st0 (firstOccs (F.take (k + 1)))
      (nbExp nc0 (F.take (k + 1))) st2 :=
    core_set_base c F st0 _ _ st1 st2 hcore1b oi hoiLt (some (nc0 + k))
      rfl rfl rfl
  have hcore3 : Core c F st0 (firstOccs (F.take (k + 1)))
      (nbExp nc0 (F.take (k + 1))) st3 :=
    core_append_top c F st0 hwf _ _ st2 st3 hcore2 f hfmem
      (some (nc0 + k)) none rfl rfl hug3
  have hcore3b : Core c F st0 (firstOccs (F.take (k + 1)))
      (nbExp nc0 (F.take (k + 1))) st3b :=
    core_setSelect c F st0 _ _ st3 st3b hcore3 f.fi false rfl rfl rfl
  have hcore4 : Core c F st0 (firstOccs (F.take (k + 1)))
      (nbExp nc0 (F.take (k + 1))) st4 :=
    core_setSelect c F st0 _ _ st3b st4 hcore3b (st3.bm.length - 1) true
      rfl rfl rfl
  have hExt12 : Ext st1 st2 :=
    ext_of_set_neighbour st1 st2 oi (some (nc0 + k)) rfl rfl
  have hExt23 : Ext st2 st3 := ext_of_append st2 st3 _ _ rfl hug3
  have hExt34 : Ext st3 st4 := by
    refine Ext.trans st3 st3b st4 ?_ ?_
    · exact ext_of_setSelect st3 st3b f.fi false rfl rfl
    · exact ext_of_setSelect st3b st4 (st3.bm.length - 1) true rfl rfl
  have hExt14 : Ext st1 st4 :=
    Ext.trans st1 st3 st4 (Ext.trans st1 st2 st3 hExt12 hExt23) hExt34
  have hclen2 : st2.ugcells.length = st1.ugcells.length := by
    show (add_face_info st1.ugcells (nc0 + k) oi).length = st1.ugcells.length
    rw [length_add_face_info]
  have hclen3 : st3.ugcells.length = st2.ugcells.length := by
    show (add_face_info st2.ugcells (nc0 + k) tfi).length = st2.ugcells.length
    rw [length_add_face_info]
  have hnc_lt : nc0 + k < st1.ugcells.length := by
    have hcl := hinner.clen
    rw [cellsLen] at hcl
    omega
  have hsideBound : ∀ i, i < f.edges.length →
      nu0 ≤ (cellAt st1 (nc0 + k)).getD i 0 ∧
      (cellAt st1 (nc0 + k)).getD i 0 < st1.ugfaces.length := by
    intro i hi
    obtain ⟨jr, hqr, hent⟩ := hinner.cur_ent i hi
    rw [hent]
    have hb := hqr.1
    have h := hcore1.ug_len
    constructor
    · omega
    · omega
  have hoiNotMem : oi ∉ cellAt st1 (nc0 + k) := by
    intro hxin
    obtain ⟨i, hi, hgd⟩ := mem_getD_own _ _ 0 hxin
    rw [hinner.cur_len] at hi
    have := (hsideBound i hi).1
    omega
  have hcell2 : cellAt st2 (nc0 + k) = cellAt st1 (nc0 + k) ++ [oi] := by
    show (add_face_info st1.ugcells (nc0 + k) oi).getD (nc0 + k) [] = _
    rw [add_face_info_self st1.ugcells (nc0 + k) oi hnc_lt
      (by rw [← cellAt_def]; exact hoiNotMem)]
    rw [← cellAt_def]
  have htfiNotMem : tfi ∉ cellAt st2 (nc0 + k) := by
    intro hxin
    rw [hcell2] at hxin
    rcases List.mem_append.mp hxin with hx | hx
    · obtain ⟨i, hi, hgd⟩ := mem_getD_own _ _ 0 hx
      rw [hinner.cur_len] at hi
      have h2 := (hsideBound i hi).2
      rw [hgd] at h2
      rw [htfi, h12len] at *
      omega
    · have hoe : tfi = oi := by simpa using hx
      rw [htfi, h12len] at hoe
      omega
  have hcell3 : cellAt st3 (nc0 + k) = (cellAt st1 (nc0 + k) ++ [oi]) ++ [tfi] := by
    show (add_face_info st2.ugcells (nc0 + k) tfi).getD (nc0 + k) [] = _
    rw [add_face_info_self st2.ugcells (nc0 + k) tfi
      (by rw [hclen2] at *; omega)
      (by rw [← cellAt_def]; exact htfiNotMem)]
    rw [← cellAt_def, hcell2]
  have hcell4 : cellAt st4 (nc0 + k) =
      cellAt st1 (nc0 + k) ++ [oi, tfi] := by
    show cellAt st3 (nc0 + k) = _
    rw [hcell3, List.append_assoc]
    rfl
  have hsidesNodup : (cellAt st1 (nc0 + k)).Nodup := by
    refine nodup_of_getD_inj _ 0 ?_
    intro i i2 hi hi2 hgd
    rw [hinner.cur_len] at hi hi2
    obtain ⟨jr, hqr, hent⟩ := hinner.cur_ent i hi
    obtain ⟨jr2, hqr2, hent2⟩ := hinner.cur_ent i2 hi2
    rw [hent, hent2] at hgd
    have hjr : jr = jr2 := by omega
    rw [hjr] at hqr
    have hedgeEq : f.edges.getD i dEdge = f.edges.getD i2 dEdge :=
      quad_eq_of_same_idx c F st0 hwf nf0 st1.bm _ _
        ⟨f, hfmem, getD_mem_own f.edges i dEdge hi⟩
        ⟨f, hfmem, getD_mem_own f.edges i2 dEdge hi2⟩ jr2 hqr hqr2
    exact nodup_getD_inj f.edges (hwf.edges_nodup f hfmem) dEdge i i2 hi hi2
      hedgeEq
  have hfullNodup : (cellAt st1 (nc0 + k) ++ [oi, tfi]).Nodup := by
    have h1 : (cellAt st1 (nc0 + k) ++ [oi]).Nodup :=
      nodup_concat_own _ oi hsidesNodup hoiNotMem
    have h2 : ((cellAt st1 (nc0 + k) ++ [oi]) ++ [tfi]).Nodup := by
      refine nodup_concat_own _ tfi h1 ?_
      rw [← hcell2]
      exact htfiNotMem
    rw [List.append_assoc] at h2
    exact h2
  have hugAtTop3 : ugAt st3 tfi = { verts := f.verts.map c.vm, owner := some (nc0 + k), neighbour := none, deleted := false, bi := st2.bm.length } := by
    rw [ugAt_def, hug3, htfi, getD_append_self]
  have hdoneK : DoneCell c F st0 k st4 := by
    refine ⟨cellAt st1 (nc0 + k), oi, tfi, hcell4, ?_, hfullNodup, hoiLt, ?_,
      ?_, ?_, ?_, ?_, ?_⟩
    · rw [hinner.cur_len, ← hf]
    · rw [hExt14.ug_bi oi (by omega), hoiBi, ← hf]
    · rw [htfi, h12len]
      omega
    · have h3 : tfi < st3.ugfaces.length := by
        rw [h23len]
        omega
      have h4 := hExt34.ug_le
      calc tfi < st3.ugfaces.length := h3
        _ ≤ st4.ugfaces.length := h4
    · rw [hExt34.ug_verts tfi (by rw [h23len]; omega), hugAtTop3, ← hf]
    · rw [hExt34.ug_owner tfi (by rw [h23len]; omega), hugAtTop3]
    · intro i hi
      rw [hinner.cur_len] at hi
      obtain ⟨jr, hqr, hent⟩ := hinner.cur_ent i hi
      refine ⟨jr, ?_, hent⟩
      rw [← hf]
      exact isQuadOf_ext c nf0 st1 st4 hExt14 _ jr hqr
  refine ⟨st4, hrun, ?_, ?_, ?_, ?_⟩
  · exact hcore4
  · show st4.ugcells.length = nc0 + F.length
    have h := hinner.clen
    rw [cellsLen] at h
    show st3.ugcells.length = nc0 + F.length
    rw [hclen3, hclen2]
    exact h
  · intro j hj
    by_cases hje : j = k
    · subst hje
      exact hdoneK
    · have hjlt : j < k := by omega
      refine DoneCell_ext c F st0 j st1 st4 (hinner.done j hjlt) hExt14
        hnu_le1 ?_
      show cellAt st3 (nc0 + j) = cellAt st1 (nc0 + j)
      rw [cellAt_def, cellAt_def]
      show (add_face_info st2.ugcells (nc0 + k) tfi).getD (nc0 + j) [] = _
      rw [add_face_info_other st2.ugcells (nc0 + k) tfi (nc0 + j) (by omega)]
      show (add_face_info st1.ugcells (nc0 + k) oi).getD (nc0 + j) [] = _
      rw [add_face_info_other st1.ugcells (nc0 + k) oi (nc0 + j) (by omega)]
  · intro j hjk hjF
    have hjgt : k < j := by omega
    show cellAt st3 (nc0 + j) = []
    rw [cellAt_def]
    show (add_face_info st2.ugcells (nc0 + k) tfi).getD (nc0 + j) [] = _
    rw [add_face_info_other st2.ugcells (nc0 + k) tfi (nc0 + j) (by omega)]
    show (add_face_info st1.ugcells (nc0 + k) oi).getD (nc0 + j) [] = _
    rw [add_face_info_other st1.ugcells (nc0 + k) oi (nc0 + j) (by omega)]
    rw [← cellAt_def]
    exact hinner.todo j hjgt hjF

end UGX

namespace UGX

theorem getD_replicate_self {α : Type} (n i : Nat) (x : α) :
    (List.replicate n x).getD i x = x := by
  induction n generalizing i with
  | zero => cases i <;> rfl
  | succ n ih =>
    cases i with
    | zero => rfl
    | succ i => exact ih i

theorem outer_init (c : Ctx) (F : List FrontFace) (st0 : LayerState) :
    OuterInv c F st0 0
      { st0 with ugcells := st0.ugcells ++ List.replicate F.length [],
                 processed := [], newfaces := [] } := by
  refine ⟨⟨?_, ?_, ?_, ?_, ?_, ?_, ?_, ?_, ?_, ?_, ?_, ?_, ?_, ?_⟩, ?_, ?_, ?_⟩
  · exact Nat.le_refl _
  · show st0.ugfaces.length = st0.ugfaces.length + (st0.bm.length - st0.bm.length)
    omega
  · intro u hu
    rfl
  · intro j hj
    simp at hj
  · intro j hj
    simp at hj
  · rfl
  · exact List.nodup_nil
  · intro e he
    exact absurd he (List.not_mem_nil e)
  · intro j hj
    simp at hj
  · intro e he
    exact absurd he (List.not_mem_nil e)
  · intro e he
    exact absurd he (List.not_mem_nil e)
  · intro e he
    exact absurd he (List.not_mem_nil e)
  · intro e he
    exact absurd he (List.not_mem_nil e)
  · intro e he
    exact absurd he (List.not_mem_nil e)
  · unfold cellsLen
    simp
  · intro j hj
    exact absurd hj (by omega)
  · intro j h0 hjF
    show (st0.ugcells ++ List.replicate F.length []).getD
      (st0.ugcells.length + j) [] = []
    rw [getD_append_ge _ _ _ _ (by omega)]
    have hidx : st0.ugcells.length + j - st0.ugcells.length = j := by omega
    rw [hidx, getD_replicate_self]

theorem cfLoop_inv (c : Ctx) (F : List FrontFace) (st0 : LayerState)
    (hwf : WF c F st0) (n : Nat) :
    ∀ k st, n = F.length - k → k ≤ F.length → OuterInv c F st0 k st →
    ∃ stf, cfLoop c st0.bm.length (F.drop k) (st0.ugcells.length + k) st =
      CF.ok stf ∧ OuterInv c F st0 F.length stf := by
  induction n with
  | zero =>
    intro k st hn hk hinv
    have hkF : k = F.length := by omega
    subst hkF
    rw [List.drop_length]
    exact ⟨st, rfl, hinv⟩
  | succ n ih =>
    intro k st hn hk hinv
    have hklt : k < F.length := by omega
    rw [drop_eq_getD_cons F k dFront hklt]
    obtain ⟨st2, hrun, hinv2⟩ := processFace_inv c F st0 hwf k st hklt hinv
    simp only [cfLoop]
    rw [hrun]
    exact ih (k + 1) st2 (by omega) (by omega) hinv2

theorem create_faces_correct (c : Ctx) (F : List FrontFace) (st0 : LayerState)
    (hwf : WF c F st0) :
    ∃ stf, create_faces c F st0 = CF.ok stf ∧
      OuterInv c F st0 F.length stf := by
  have h0 := outer_init c F st0
  obtain ⟨stf, hrun, hinv⟩ :=
    cfLoop_inv c F st0 hwf F.length 0 _ rfl (by omega) h0
  exact ⟨stf, hrun, hinv⟩

end UGX

namespace UGX

theorem lastOccAux_none_of (e : Nat × Nat) :
    ∀ P : List FrontFace, (∀ f ∈ P, e ∉ f.edges) →
      ∀ i, lastOccAux P i e = none := by
  intro P
  induction P with
  | nil => intro _ i; rfl
  | cons f rest ih =>
    intro h i
    have hrest := ih (fun g hg => h g (List.mem_cons_of_mem f hg)) (i + 1)
    show (match lastOccAux rest (i + 1) e with
      | some j => some j
      | none => if e ∈ f.edges then some i else none) = none
    rw [hrest]
    show (if e ∈ f.edges then some i else none) = none
    rw [if_neg (h f (List.mem_cons_self f rest))]

theorem lastOccAux_eq_of (e : Nat × Nat) :
    ∀ (F : List FrontFace) (i j : Nat), j < F.length →
      e ∈ (F.getD j dFront).edges →
      (∀ k, j < k → k < F.length → e ∉ (F.getD k dFront).edges) →
      lastOccAux F i e = some (i + j) := by
  intro F
  induction F with
  | nil =>
    intro i j hj
    simp at hj
  | cons f rest ih =>
    intro i j hj hin hafter
    cases j with
    | zero =>
      have hnone : ∀ g ∈ rest, e ∉ g.edges := by
        intro g hg
        obtain ⟨k, hk, hgd⟩ := mem_getD_own rest g dFront hg
        have h2 := hafter (k + 1) (by omega) (by simp; omega)
        rw [show (f :: rest).getD (k + 1) dFront = rest.getD k dFront from rfl,
          hgd] at h2
        exact h2
      have hrest := lastOccAux_none_of e rest hnone (i + 1)
      show (match lastOccAux rest (i + 1) e with
        | some j => some j
        | none => if e ∈ f.edges then some i else none) = some (i + 0)
      rw [hrest]
      show (if e ∈ f.edges then some i else none) = some (i + 0)
      have hin0 : e ∈ f.edges := hin
      rw [if_pos hin0]
      rfl
    | succ j =>
      have hin2 : e ∈ (rest.getD j dFront).edges := hin
      have hafter2 : ∀ k, j < k → k < rest.length →
          e ∉ (rest.getD k dFront).edges := by
        intro k hk hkl
        exact hafter (k + 1) (by omega) (by simp; omega)
      have hrest := ih (i + 1) j (by simp at hj; omega) hin2 hafter2
      show (match lastOccAux rest (i + 1) e with
        | some j2 => some j2
        | none => if e ∈ f.edges then some i else none) = some (i + (j + 1))
      rw [hrest]
      show some (i + 1 + j) = some (i + (j + 1))
      congr 1
      omega

theorem occCount_two_of (F : List FrontFace) (e : Nat × Nat) (i j : Nat)
    (hij : i < j) (hj : j < F.length)
    (hei : e ∈ (F.getD i dFront).edges)
    (hej : e ∈ (F.getD j dFront).edges) : 2 ≤ occCount F e := by
  have hsplit : F = F.take (i + 1) ++ F.drop (i + 1) :=
    (List.take_append_drop (i + 1) F).symm
  have h1 : 0 < occCount (F.take (i + 1)) e := by
    rw [occCount_pos_iff]
    refine ⟨F.getD i dFront, ?_, hei⟩
    rw [mem_take_iff_getD F (i + 1) (by omega)]
    exact ⟨i, by omega, rfl⟩
  have h2 : 0 < occCount (F.drop (i + 1)) e := by
    rw [occCount_pos_iff]
    refine ⟨F.getD j dFront, ?_, hej⟩
    have hg : (F.drop (i + 1)).getD (j - (i + 1)) dFront = F.getD j dFront := by
      rw [getD_drop_own]
      congr 1
      omega
    rw [← hg]
    apply getD_mem_own
    rw [List.length_drop]
    omega
  have hcomb : occCount F e =
      occCount (F.take (i + 1)) e + occCount (F.drop (i + 1)) e := by
    conv_lhs => rw [hsplit]
    rw [occCount_append]
  omega

theorem final_core (c : Ctx) (F : List FrontFace) (st0 : LayerState)
    (stf : LayerState) (h : OuterInv c F st0 F.length stf) :
    Core c F st0 (firstOccs F) (nbExp st0.ugcells.length F) stf := by
  have h2 := h.core
  rw [List.take_length] at h2
  exact h2

end UGX

namespace UGX

/-- C8: for every front face with `n` edges processed in one layer, the cell
created for it contains exactly `n + 2` faces at the end of the layer's
construction: one side quad per edge (in edge order, each a record of that
edge), then the base grid face (the one whose mesh index is the front face's
index), then the top cap face (carrying the mapped vertex list), each face
appearing in the cell exactly once. -/
theorem claim_C8 (c : Ctx) (F : List FrontFace) (st0 : LayerState)
    (hwf : WF c F st0) :
    ∃ stf, create_faces c F st0 = CF.ok stf ∧
      ∀ k, k < F.length →
        (cellAt stf (st0.ugcells.length + k)).length =
          (F.getD k dFront).edges.length + 2 ∧
        (cellAt stf (st0.ugcells.length + k)).Nodup ∧
        ∃ sides b t,
          cellAt stf (st0.ugcells.length + k) = sides ++ [b, t] ∧
          sides.length = (F.getD k dFront).edges.length ∧
          (ugAt stf b).bi = (F.getD k dFront).fi ∧
          (ugAt stf t).verts = (F.getD k dFront).verts.map c.vm ∧
          (∀ i, i < sides.length → ∃ jr,
            isQuadOf c st0.bm.length stf.bm
              ((F.getD k dFront).edges.getD i dEdge) jr ∧
            sides.getD i 0 = st0.ugfaces.length + jr) := by
  obtain ⟨stf, hrun, hinv⟩ := create_faces_correct c F st0 hwf
  refine ⟨stf, hrun, ?_⟩
  intro k hk
  obtain ⟨sides, b, t, hcell, hlen, hnd, hblt, hbbi, htge, htlt, htv, hto,
    hside⟩ := hinv.done k hk
  refine ⟨?_, ?_, sides, b, t, hcell, hlen, hbbi, htv, hside⟩
  · rw [hcell, List.length_append, hlen]
    rfl
  · rw [hcell]
    exact hnd

/-- C7: for every edge `e` of a front face, a side quad for `e` exists among
the faces created during the layer, and every such quad record carries exactly
the winding the orientation rule dictates: the quad vertex list
`[e0, vm e0, vm e1, e1]`, reversed precisely when the dot product of the new
face's normal with the reference vector from the edge midpoint to the median
center of the first front face processing `e` is strictly positive
(`flip_decision`); and its owner is the cell of that first face. -/
theorem claim_C7 (c : Ctx) (F : List FrontFace) (st0 : LayerState)
    (hwf : WF c F st0) (f : FrontFace) (hf : f ∈ F) (e : Nat × Nat)
    (he : e ∈ f.edges) :
    ∃ stf, create_faces c F st0 = CF.ok stf ∧
      (∃ q, isQuadOf c st0.bm.length stf.bm e q) ∧
      ∀ q, isQuadOf c st0.bm.length stf.bm e q →
        bmVL stf.bm (st0.bm.length + q) =
          (if flip_decision c (F.getD (firstFaceIdx F e) dFront) e
           then (quadList c.vm e).reverse else quadList c.vm e) ∧
        (ugAt stf (st0.ugfaces.length + q)).owner =
          some (st0.ugcells.length + firstFaceIdx F e) := by
  obtain ⟨stf, hrun, hinv⟩ := create_faces_correct c F st0 hwf
  have hcore := final_core c F st0 stf hinv
  have hmem : e ∈ firstOccs F := (mem_firstOccs F e).mpr ⟨f, hf, he⟩
  refine ⟨stf, hrun, hcore.rec_ex e hmem, ?_⟩
  intro q hq
  constructor
  · rw [hcore.rec_wind e hmem q hq]
    rfl
  · exact hcore.rec_owner e hmem q hq

/-- C1: when exactly two front faces (indices `i < j`) share the edge `e`,
the layer creates exactly one side face for `e`: a unique quad record exists,
its vertex set is `{e0, vm e0, vm e1, e1}`, its owner is the cell of the
first sharing face and its neighbour is the cell of the second sharing face —
the interior wall is never duplicated. -/
theorem claim_C1 (c : Ctx) (F : List FrontFace) (st0 : LayerState)
    (hwf : WF c F st0) (i j : Nat) (hij : i < j) (hj : j < F.length)
    (e : Nat × Nat)
    (hei : e ∈ (F.getD i dFront).edges) (hej : e ∈ (F.getD j dFront).edges)
    (honly : ∀ k, k < F.length → e ∈ (F.getD k dFront).edges →
      k = i ∨ k = j) :
    ∃ stf, create_faces c F st0 = CF.ok stf ∧
      ∃ q, isQuadOf c st0.bm.length stf.bm e q ∧
        (∀ q2, isQuadOf c st0.bm.length stf.bm e q2 → q2 = q) ∧
        sameVertSet (bmVL stf.bm (st0.bm.length + q)) (quadList c.vm e) ∧
        (ugAt stf (st0.ugfaces.length + q)).owner =
          some (st0.ugcells.length + i) ∧
        (ugAt stf (st0.ugfaces.length + q)).neighbour =
          some (st0.ugcells.length + j) := by
  obtain ⟨stf, hrun, hinv⟩ := create_faces_correct c F st0 hwf
  have hcore := final_core c F st0 stf hinv
  have hmem : e ∈ firstOccs F :=
    (mem_firstOccs F e).mpr
      ⟨F.getD i dFront, getD_mem_own F i dFront (by omega), hei⟩
  obtain ⟨q, hq⟩ := hcore.rec_ex e hmem
  have hfirst : firstFaceIdx F e = i := by
    refine firstFaceIdx_eq_of F e i ?_ (by omega) hei
    intro k hk hke
    rcases honly k (by omega) hke with rfl | rfl
    · omega
    · omega
  have hnb : nbExp st0.ugcells.length F e =
      some (st0.ugcells.length + j) := by
    unfold nbExp
    rw [if_pos (occCount_two_of F e i j hij hj hei hej)]
    have hlast : lastOccAux F 0 e = some (0 + j) := by
      refine lastOccAux_eq_of e F 0 j hj hej ?_
      intro k hk hkl hke
      rcases honly k hkl hke with rfl | rfl
      · omega
      · omega
    rw [hlast]
    show some (st0.ugcells.length + (0 + j)) = some (st0.ugcells.length + j)
    congr 1
    omega
  refine ⟨stf, hrun, q, hq, ?_, ?_, ?_, ?_⟩
  · intro q2 hq2
    exact hcore.rec_uniq e hmem q2 q hq2 hq
  · exact isQuadOf_mem_iff c st0.bm.length stf.bm e q hq
  · rw [hcore.rec_owner e hmem q hq, hfirst]
  · rw [hcore.rec_nb e hmem q hq, hnb]

end UGX

namespace UGX

/-- Scenario B of the spec: two adjacent quad faces sharing the edge (1, 2). -/
def f0W : FrontFace :=
  { fi := 0, verts := [0, 1, 2, 3], edges := [(0, 1), (1, 2), (2, 3), (3, 0)] }

def f1W : FrontFace :=
  { fi := 1, verts := [1, 4, 5, 2], edges := [(1, 4), (4, 5), (5, 2), (1, 2)] }

def FW : List FrontFace := [f0W, f1W]

/-- Geometry for the scenario: new vertices are the old index plus six. -/
def cW : Ctx :=
  { co := fun _ => Vec3.zero, vm := fun v => v + 6,
    nrm := fun _ => { x := 0, y := 0, z := 1 } }

def stW : LayerState :=
  { bm := [{ verts := [0, 1, 2, 3], select := true },
           { verts := [1, 4, 5, 2], select := true }],
    ugfaces := [{ verts := [0, 1, 2, 3], owner := some 0, neighbour := none,
                  deleted := false, bi := 0 },
                { verts := [1, 4, 5, 2], owner := some 1, neighbour := none,
                  deleted := false, bi := 1 }],
    ugcells := [], processed := [], newfaces := [] }

theorem wfW : WF cW FW stW :=
  ⟨by decide, by decide, by decide, by decide, by decide, by decide,
   by decide, by decide, by decide, by decide⟩

theorem claim_C8_witness :
    WF cW FW stW ∧
    ∃ stf, create_faces cW FW stW = CF.ok stf ∧
      ∀ k, k < FW.length →
        (cellAt stf (stW.ugcells.length + k)).length =
          (FW.getD k dFront).edges.length + 2 ∧
        (cellAt stf (stW.ugcells.length + k)).Nodup ∧
        ∃ sides b t,
          cellAt stf (stW.ugcells.length + k) = sides ++ [b, t] ∧
          sides.length = (FW.getD k dFront).edges.length ∧
          (ugAt stf b).bi = (FW.getD k dFront).fi ∧
          (ugAt stf t).verts = (FW.getD k dFront).verts.map cW.vm ∧
          (∀ i, i < sides.length → ∃ jr,
            isQuadOf cW stW.bm.length stf.bm
              ((FW.getD k dFront).edges.getD i dEdge) jr ∧
            sides.getD i 0 = stW.ugfaces.length + jr) :=
  ⟨wfW, claim_C8 cW FW stW wfW⟩

theorem claim_C7_witness :
    WF cW FW stW ∧ f0W ∈ FW ∧ (1, 2) ∈ f0W.edges ∧
    ∃ stf, create_faces cW FW stW = CF.ok stf ∧
      (∃ q, isQuadOf cW stW.bm.length stf.bm (1, 2) q) ∧
      ∀ q, isQuadOf cW stW.bm.length stf.bm (1, 2) q →
        bmVL stf.bm (stW.bm.length + q) =
          (if flip_decision cW (FW.getD (firstFaceIdx FW (1, 2)) dFront) (1, 2)
           then (quadList cW.vm (1, 2)).reverse else quadList cW.vm (1, 2)) ∧
        (ugAt stf (stW.ugfaces.length + q)).owner =
          some (stW.ugcells.length + firstFaceIdx FW (1, 2)) :=
  ⟨wfW, by decide, by decide,
   claim_C7 cW FW stW wfW f0W (by decide) (1, 2) (by decide)⟩

theorem claim_C1_witness :
    WF cW FW stW ∧ 0 < 1 ∧ 1 < FW.length ∧
    (1, 2) ∈ (FW.getD 0 dFront).edges ∧ (1, 2) ∈ (FW.getD 1 dFront).edges ∧
    (∀ k, k < FW.length → (1, 2) ∈ (FW.getD k dFront).edges →
      k = 0 ∨ k = 1) ∧
    ∃ stf, create_faces cW FW stW = CF.ok stf ∧
      ∃ q, isQuadOf cW stW.bm.length stf.bm (1, 2) q ∧
        (∀ q2, isQuadOf cW stW.bm.length stf.bm (1, 2) q2 → q2 = q) ∧
        sameVertSet (bmVL stf.bm (stW.bm.length + q))
          (quadList cW.vm (1, 2)) ∧
        (ugAt stf (stW.ugfaces.length + q)).owner =
          some (stW.ugcells.length + 0) ∧
        (ugAt stf (stW.ugfaces.length + q)).neighbour =
          some (stW.ugcells.length + 1) :=
  ⟨wfW, by decide, by decide, by decide, by decide, by decide,
   claim_C1 cW FW stW wfW 0 1 (by decide) (by decide) (1, 2) (by decide)
     (by decide) (by decide)⟩

end UGX
